import Mathlib

/-!
Verification of the cooperative coroutine runtime in src/yuOS/M2-libco/co.c.

The embedding models the runtime as a small-step interpreter on an explicit
state.  Each coroutine record mirrors `struct co`; the circular ready queue
(`CoNode` ring with head pointer `co_queue`) is modelled as a `List Nat` whose
head is the node `co_queue` points at and whose order is the `next`-direction
of the ring.  The saved machine context (`jmp_buf` plus the private stack) is
modelled by the list of operations the coroutine has yet to execute (`rem`);
an entry function together with its argument is modelled by the operation list
it performs ("the body"), carried by the `spawn` operation of the spawning
coroutine.  The primordial ("main") record carries `main := true`: exhausting
its `rem` models returning from `main`, while exhausting the `rem` of any
other record models the entry function returning into the scheduler
(co.c lines 260-272).
-/

namespace LibCo

/-- Coroutine lifecycle status, mirroring `CoStatus` in co.c
(`CO_STATUS_NEW`, `CO_STATUS_RUNNING`, `CO_STATUS_WAITING`, `CO_STATUS_DEAD`).
The spec's name `Runnable` corresponds to `CO_STATUS_RUNNING`. -/
inductive CoStatus
  | new
  | running
  | waiting
  | dead
deriving DecidableEq, Repr

/-- One operation performed by a coroutine body.  `yield` is a call to
`co_yield`, `wait h` a call to `co_wait` on the record with id `h`, and
`spawn f a body` a call to `co_start` with entry-function code `f` and
argument `a`, where `body` is the operation list that entry function performs
on that argument.  `reclaim h` is internal: it is the second half of `co_wait`
(co.c lines 194-212), pushed as the caller's continuation when `co_wait`
suspends, so that reclamation runs when the waiter resumes. -/
inductive Op
  | yield : Op
  | wait (h : Nat) : Op
  | spawn (f a : Nat) (body : List Op) : Op
  | reclaim (h : Nat) : Op

/-- A coroutine record, mirroring `struct co` in co.c.  `func` and `arg` are
the entry-function pointer and its argument (`none` models C's `NULL`, used
only by the primordial record created in `co_initialize`); the diagnostic
`name` string is omitted.  `rem` models the saved execution context, `main`
marks the primordial record (see the module comment). -/
structure Rec where
  func : Option Nat
  arg : Option Nat
  status : CoStatus
  waiter : Option Nat
  main : Bool
  rem : List Op

/-- Global state of the runtime: the allocated records (the heap, keyed by
id), the circular ready queue (`co_queue`), the running coroutine
(`current_co`) and the allocator counter for fresh ids. -/
structure Sys where
  recs : List (Nat × Rec)
  queue : List Nat
  current : Nat
  nextId : Nat

/-- Observable events of a run: record creation (`co_start`), first-run
transfer (`stack_switch_call` of the entry function, with the func/arg the
record holds at that moment), resume transfer (`longjmp` into a saved
context), entry-function return (the record is marked dead), and entry into
`co_wait`. -/
inductive Ev
  | spawned (id : Nat) (f a : Option Nat)
  | invoke (id : Nat) (f a : Option Nat)
  | resume (id : Nat)
  | died (id : Nat)
  | waitOn (caller target : Nat)
deriving DecidableEq, Repr

/-- How a run can stop: `exitZero` is the `exit(0)` of co.c line 239 (no
eligible coroutine), `mainReturned` is the primordial flow returning from
`main`, `assertFail` an `assert` aborting, `ub` undefined behaviour
(dereferencing freed or null memory). -/
inductive Halt
  | exitZero
  | mainReturned
  | assertFail
  | ub
deriving DecidableEq, Repr

/-- Heap lookup by record id. -/
def lookupRec : List (Nat × Rec) → Nat → Option Rec
  | [], _ => none
  | p :: t, id => if p.1 = id then some p.2 else lookupRec t id

/-- In-place update of a record by id. -/
def updateRec : List (Nat × Rec) → Nat → (Rec → Rec) → List (Nat × Rec)
  | [], _, _ => []
  | p :: t, id, g => (if p.1 = id then (p.1, g p.2) else p) :: updateRec t id g

/-- `free` of a record: remove it from the heap. -/
def eraseRec : List (Nat × Rec) → Nat → List (Nat × Rec)
  | [], _ => []
  | p :: t, id => if p.1 = id then eraseRec t id else p :: eraseRec t id

/-- `co_queue_insert` (co.c lines 109-128): a new node is linked in just
before the head of the circular list, i.e. appended at the tail of the
insertion order. -/
def co_queue_insert (q : List Nat) (id : Nat) : List Nat :=
  match q with
  | [] => [id]
  | _ => q ++ [id]

/-- `co_queue_remove` (co.c lines 134-152): unlink the head node; the node
after it becomes the head (`NULL` queue when it was the only node). -/
def co_queue_remove (q : List Nat) : Option (Nat × List Nat) :=
  match q with
  | [] => none
  | v :: t => some (v, t)

/-- One step of the head pointer: `co_queue = co_queue->next`. -/
def rot : List Nat → List Nat
  | [] => []
  | a :: t => t ++ [a]

/-- Eligibility test of the scheduler scan (co.c lines 230-231): status
`CO_STATUS_RUNNING` or `CO_STATUS_NEW`. -/
def elig (r : Rec) : Bool :=
  r.status = CoStatus.running || r.status = CoStatus.new

/-- The scan loop of `co_yield` (co.c lines 224-235): repeatedly advance the
head pointer and test the record it now points at, stopping at the first
eligible one; give up after one full wrap (the fuel starts at the queue
length, matching the do/while guard `co_queue != start_node`).  A node whose
record is no longer in the heap would be a read of freed memory in C; the
model skips it (unreachable in well-formed states). -/
def scanLoop (rs : List (Nat × Rec)) : Nat → List Nat → Option (Nat × Rec × List Nat)
  | 0, _ => none
  | n + 1, q =>
    match (rot q).head? with
    | none => none
    | some id =>
      match lookupRec rs id with
      | none => scanLoop rs n (rot q)
      | some r => if elig r then some (id, r, rot q) else scanLoop rs n (rot q)

/-- Result of the scheduling half of `co_yield`: either no eligible record
exists (`exit(0)`, line 239) or control switches to a chosen record. -/
inductive SchedRes
  | exit : SchedRes
  | switch (s : Sys) (evs : List Ev) : SchedRes

/-- The scheduling path of `co_yield` (co.c lines 223-258): scan for the next
eligible record; resume it (`longjmp`) if it was already running, or mark it
running and perform the first-run transfer (`stack_switch_call` of its entry
function) if it is new.  The final arm is unreachable because the scan only
returns eligible records; it mirrors the fall-through return of the C code. -/
def co_schedule (s : Sys) : SchedRes :=
  match scanLoop s.recs s.queue.length s.queue with
  | none => SchedRes.exit
  | some (id, r, q') =>
    if r.status = CoStatus.running then
      SchedRes.switch { s with queue := q', current := id } [Ev.resume id]
    else if r.status = CoStatus.new then
      let rs' := updateRec s.recs id (fun rr => { rr with status := CoStatus.running })
      SchedRes.switch { s with queue := q', current := id, recs := rs' }
        [Ev.invoke id r.func r.arg]
    else
      SchedRes.switch { s with queue := q', current := id } []

/-- `co_start` (co.c lines 161-177): allocate a record with status
`CO_STATUS_NEW`, empty waiter, and insert it into the ready queue.  Returns
the new state and the handle (id). -/
def co_start (s : Sys) (f a : Option Nat) (body : List Op) (mainFlag : Bool) :
    Sys × Nat :=
  let id := s.nextId
  let r : Rec :=
    { func := f, arg := a, status := CoStatus.new, waiter := none,
      main := mainFlag, rem := body }
  let q' := co_queue_insert s.queue id
  ({ s with recs := (id, r) :: s.recs, queue := q', nextId := id + 1 }, id)

/-- `co_initialize` (co.c lines 288-292): create the primordial record via
`co_start` with `NULL` entry function and argument, then set its status
directly to `CO_STATUS_RUNNING` and make it current.  `mainProg` is the
operation list the primordial flow (the host `main`) will perform. -/
def initSys (mainProg : List Op) : Sys :=
  let s0 : Sys := { recs := [], queue := [], current := 0, nextId := 0 }
  let p := co_start s0 none none mainProg true
  { p.1 with
    recs := updateRec p.1.recs p.2 (fun r => { r with status := CoStatus.running }),
    current := p.2 }

/-- The repositioning loop of `co_wait` (co.c lines 195-204): scan the ring
from the head for the node holding `h`; `passed` accumulates the nodes
already stepped over.  On success the returned list is the ring re-read from
the found node. -/
def rotLoop (h : Nat) : List Nat → List Nat → Option (List Nat)
  | _, [] => none
  | passed, c :: cs =>
    if c = h then some (c :: (cs ++ passed)) else rotLoop h (passed ++ [c]) cs

/-- Reposition the queue head at the first node holding `h` (co.c lines
195-204); the queue is left unchanged when `h` is absent (the do/while wraps
back to the old head). -/
def rotateTo (q : List Nat) (h : Nat) : List Nat :=
  (rotLoop h [] q).getD q

/-- The reclamation part of `co_wait` (co.c lines 194-212): reposition the
head at the target, assert the head really is the target (line 207), free the
record, and unlink the node.  An empty queue would make line 207 dereference
`NULL` (undefined behaviour). -/
def co_reclaim (s : Sys) (h : Nat) : Except Halt Sys :=
  match s.queue with
  | [] => Except.error Halt.ub
  | _ :: _ =>
    match rotateTo s.queue h with
    | [] => Except.error Halt.ub
    | x :: rest =>
      if x = h then
        Except.ok { s with recs := eraseRec s.recs h, queue := rest }
      else Except.error Halt.assertFail

/-- The waiter registration of `co_wait` (co.c lines 185-191): the target's
waiter field is overwritten with the caller unconditionally (no check for an
already-registered waiter), the caller is marked `CO_STATUS_WAITING`, and the
reclamation continuation is saved in front of the caller's remaining
program (control will re-enter `co_wait` after the yield returns). -/
def co_wait_register (s : Sys) (h : Nat) : Sys :=
  let rs1 := updateRec s.recs h (fun r => { r with waiter := some s.current })
  let rs2 := updateRec rs1 s.current
    (fun r => { r with status := CoStatus.waiting, rem := Op.reclaim h :: r.rem })
  { s with recs := rs2 }

/-- Outcome of one interpreter step. -/
inductive StepAns
  | next (s : Sys) (evs : List Ev)
  | halt (h : Halt) (evs : List Ev)

/-- Embed a scheduling result into a step outcome, prefixing events emitted
before the scheduling happened. -/
def schedToStep (res : SchedRes) (pre : List Ev) : StepAns :=
  match res with
  | SchedRes.exit => StepAns.halt Halt.exitZero pre
  | SchedRes.switch s' evs => StepAns.next s' (pre ++ evs)

/-- Embed a reclamation result into a step outcome. -/
def reclaimToStep (res : Except Halt Sys) (evs : List Ev) : StepAns :=
  match res with
  | Except.ok s' => StepAns.next s' evs
  | Except.error e => StepAns.halt e evs

/-- Store a new remaining program for the current record (consuming its next
operation before executing it). -/
def setRem (s : Sys) (rest : List Op) : Sys :=
  { s with recs := updateRec s.recs s.current (fun rr => { rr with rem := rest }) }

/-- The entry-return path of `co_yield` (co.c lines 260-272): mark the
current record `CO_STATUS_DEAD`, and if it has a registered waiter mark that
waiter `CO_STATUS_RUNNING`. -/
def deadState (s : Sys) (wo : Option Nat) : Sys :=
  let rs1 := updateRec s.recs s.current (fun rr => { rr with status := CoStatus.dead })
  match wo with
  | none => { s with recs := rs1 }
  | some w =>
    let rs2 := updateRec rs1 w (fun rr => { rr with status := CoStatus.running })
    { s with recs := rs2 }

/-- `co_wait` (co.c lines 183-213), entered with the caller's `wait`
operation already consumed from its program.  A `none` target handle is a
read of freed memory (line 185).  A dead target is reclaimed immediately
without yielding; otherwise the caller registers, suspends, and the scheduler
runs. -/
def co_wait_step (s : Sys) (h : Nat) : StepAns :=
  match lookupRec s.recs h with
  | none => StepAns.halt Halt.ub [Ev.waitOn s.current h]
  | some hr =>
    if hr.status = CoStatus.dead then
      reclaimToStep (co_reclaim s h) [Ev.waitOn s.current h]
    else
      schedToStep (co_schedule (co_wait_register s h)) [Ev.waitOn s.current h]

/-- One step of the cooperative system: the current coroutine either has
operations left (execute the next one) or its program is exhausted — return
from `main` for the primordial record, or the entry-return path of
`co_yield` followed by the recursive scheduling call for any other record. -/
def stepSys (s : Sys) : StepAns :=
  match lookupRec s.recs s.current with
  | none => StepAns.halt Halt.ub []
  | some r =>
    match r.rem with
    | [] =>
      if r.main then StepAns.halt Halt.mainReturned []
      else schedToStep (co_schedule (deadState s r.waiter)) [Ev.died s.current]
    | Op.yield :: rest => schedToStep (co_schedule (setRem s rest)) []
    | Op.spawn f a body :: rest =>
      StepAns.next (co_start (setRem s rest) (some f) (some a) body false).1
        [Ev.spawned s.nextId (some f) (some a)]
    | Op.wait h :: rest => co_wait_step (setRem s rest) h
    | Op.reclaim h :: rest => reclaimToStep (co_reclaim (setRem s rest) h) []

/-- Final outcome of a bounded run. -/
inductive RunOut
  | ran (s : Sys)
  | halted (h : Halt)

/-- Run the system for at most `fuel` steps, collecting the event log in
chronological order. -/
def run : Nat → Sys → RunOut × List Ev
  | 0, s => (RunOut.ran s, [])
  | n + 1, s =>
    match stepSys s with
    | StepAns.halt h evs => (RunOut.halted h, evs)
    | StepAns.next s' evs =>
      let r := run n s'
      (r.1, evs ++ r.2)

/-- Status of a record in a state, if the record is still allocated. -/
def statusOf (s : Sys) (id : Nat) : Option CoStatus :=
  (lookupRec s.recs id).map Rec.status

/-- Does this event record a first-run transfer of coroutine `id`? -/
def isInvokeOf (id : Nat) : Ev → Bool
  | Ev.invoke i _ _ => i == id
  | _ => false

/-- Does this event record the creation of coroutine `id`? -/
def isSpawnOf (id : Nat) : Ev → Bool
  | Ev.spawned i _ _ => i == id
  | _ => false

/-- Number of first-run transfers (entry-function invocations) of coroutine
`id` in a log. -/
def invCount (L : List Ev) (id : Nat) : Nat := L.countP (isInvokeOf id)

/-- Number of creations of coroutine `id` in a log. -/
def spawnCount (L : List Ev) (id : Nat) : Nat := L.countP (isSpawnOf id)

/-- Eligibility of the record a queue node refers to (a dangling node counts
as ineligible, matching the model's `scanLoop`). -/
def eligAt (rs : List (Nat × Rec)) (x : Nat) : Bool :=
  match lookupRec rs x with
  | some r => elig r
  | none => false

/-- `q'` is a cyclic rotation of `q`. -/
def IsRot (q q' : List Nat) : Prop := ∃ xs ys, q = xs ++ ys ∧ q' = ys ++ xs

/- ### Heap-map lemmas -/

theorem lookupRec_update_self (rs : List (Nat × Rec)) (j : Nat) (g : Rec → Rec) :
    lookupRec (updateRec rs j g) j = (lookupRec rs j).map g := by
  induction rs with
  | nil => rfl
  | cons p t ih =>
    by_cases hp : p.1 = j
    · simp [updateRec, lookupRec, hp]
    · simp [updateRec, lookupRec, hp, ih]

theorem lookupRec_update_ne (rs : List (Nat × Rec)) (j i : Nat) (g : Rec → Rec)
    (h : j ≠ i) : lookupRec (updateRec rs j g) i = lookupRec rs i := by
  induction rs with
  | nil => rfl
  | cons p t ih =>
    by_cases hp : p.1 = j
    · have hq : ¬ (p.1 = i) := fun hq => h (hp.symm.trans hq)
      simp [updateRec, lookupRec, hp, hq, h, ih]
    · by_cases hq : p.1 = i
      · simp [updateRec, lookupRec, hp, hq, Ne.symm h]
      · simp [updateRec, lookupRec, hp, hq, ih]

theorem lookupRec_erase_self (rs : List (Nat × Rec)) (j : Nat) :
    lookupRec (eraseRec rs j) j = none := by
  induction rs with
  | nil => rfl
  | cons p t ih =>
    by_cases hp : p.1 = j
    · simp [eraseRec, hp, ih]
    · simp [eraseRec, lookupRec, hp, ih]

theorem lookupRec_erase_ne (rs : List (Nat × Rec)) (j i : Nat) (h : j ≠ i) :
    lookupRec (eraseRec rs j) i = lookupRec rs i := by
  induction rs with
  | nil => rfl
  | cons p t ih =>
    by_cases hp : p.1 = j
    · have hq : ¬ (p.1 = i) := fun hq => h (hp.symm.trans hq)
      simp [eraseRec, lookupRec, hp, hq, h, ih]
    · by_cases hq : p.1 = i
      · simp [eraseRec, lookupRec, hp, hq, Ne.symm h]
      · simp [eraseRec, lookupRec, hp, hq, ih]

/- ### Rotation lemmas -/

theorem isRot_refl (q : List Nat) : IsRot q q :=
  ⟨q, [], by simp, by simp⟩

theorem isRot_rot (q q' : List Nat) (h : IsRot q q') : IsRot q (rot q') := by
  obtain ⟨xs, ys, h1, h2⟩ := h
  cases ys with
  | nil =>
    cases xs with
    | nil => simp at h1 h2; subst h1; subst h2; exact ⟨[], [], rfl, rfl⟩
    | cons x xt =>
      refine ⟨[x], xt, ?_, ?_⟩
      · simpa using h1
      · simp at h2; subst h2; simp [rot]
  | cons y yt =>
    refine ⟨xs ++ [y], yt, ?_, ?_⟩
    · simp [h1]
    · subst h2; simp [rot]

/- ### Scan-loop lemmas -/

theorem scanLoop_isRot (rs : List (Nat × Rec)) :
    ∀ (n : Nat) (q q0 : List Nat) (id : Nat) (r : Rec) (q' : List Nat),
      IsRot q0 q → scanLoop rs n q = some (id, r, q') → IsRot q0 q' := by
  intro n
  induction n with
  | zero => intro q q0 id r q' _ hs; simp [scanLoop] at hs
  | succ n ih =>
    intro q q0 id r q' hR hs
    unfold scanLoop at hs
    split at hs
    · exact absurd hs (by simp)
    · split at hs
      · exact ih _ _ _ _ _ (isRot_rot _ _ hR) hs
      · split at hs
        · cases hs; exact isRot_rot _ _ hR
        · exact ih _ _ _ _ _ (isRot_rot _ _ hR) hs

theorem scanLoop_found (rs : List (Nat × Rec)) :
    ∀ (n : Nat) (q : List Nat) (id : Nat) (r : Rec) (q' : List Nat),
      scanLoop rs n q = some (id, r, q') →
      lookupRec rs id = some r ∧ elig r = true ∧ q'.head? = some id := by
  intro n
  induction n with
  | zero => intro q id r q' hs; simp [scanLoop] at hs
  | succ n ih =>
    intro q id r q' hs
    unfold scanLoop at hs
    split at hs
    · exact absurd hs (by simp)
    · rename_i id2 hh
      split at hs
      · exact ih _ _ _ _ hs
      · rename_i rr hl
        split at hs
        · rename_i he
          cases hs
          exact ⟨hl, he, hh⟩
        · exact ih _ _ _ _ hs

/-- Functional model of the scan loop: walk the list of candidates (the nodes
after the head, in order), carrying the nodes already passed; after all
candidates fail, the head itself (first element of `ds ++ [a]`) is the last
candidate, completing the single wrap. -/
def scanModel (rs : List (Nat × Rec)) : Nat → List Nat → List Nat → Option (Nat × Rec × List Nat)
  | a, ds, [] =>
    match ds ++ [a] with
    | [] => none
    | x :: xs =>
      match lookupRec rs x with
      | none => none
      | some r => if elig r then some (x, r, x :: xs) else none
  | a, ds, c :: cs =>
    match lookupRec rs c with
    | none => scanModel rs c (ds ++ [a]) cs
    | some r =>
      if elig r then some (c, r, c :: (cs ++ (ds ++ [a])))
      else scanModel rs c (ds ++ [a]) cs

theorem scanLoop_eq_model (rs : List (Nat × Rec)) :
    ∀ (cs : List Nat) (a : Nat) (ds : List Nat),
      scanLoop rs (cs.length + 1) (a :: (cs ++ ds)) = scanModel rs a ds cs := by
  intro cs
  induction cs with
  | nil =>
    intro a ds
    unfold scanLoop
    simp only [List.nil_append, List.length_nil, rot]
    cases hds : ds ++ [a] with
    | nil => exact absurd hds (by simp)
    | cons x xs =>
      simp only [hds, List.head?]
      cases hl : lookupRec rs x with
      | none => simp [scanModel, hds, hl, scanLoop]
      | some r =>
        by_cases he : elig r
        · simp [scanModel, hds, hl, he]
        · simp [scanModel, hds, hl, he, scanLoop]
  | cons c cs ih =>
    intro a ds
    unfold scanLoop
    have hrot : rot (a :: (c :: cs ++ ds)) = c :: (cs ++ (ds ++ [a])) := by
      simp [rot]
    simp only [List.length_cons, hrot, List.head?]
    cases hl : lookupRec rs c with
    | none =>
      have := ih c (ds ++ [a])
      simp only [scanModel, hl]
      exact this
    | some r =>
      by_cases he : elig r
      · simp [scanModel, hl, he]
      · simp only [scanModel, hl, he, if_neg]
        simpa using ih c (ds ++ [a])

theorem scanLoop_queue (rs : List (Nat × Rec)) (h : Nat) (t : List Nat) :
    scanLoop rs (h :: t).length (h :: t) = scanModel rs h [] t := by
  have := scanLoop_eq_model rs t h []
  simpa using this

theorem head?_append_left {α : Type} (l m : List α) (hl : l ≠ []) :
    (l ++ m).head? = l.head? := by
  cases l with
  | nil => exact absurd rfl hl
  | cons a t => rfl

theorem scanModel_nil_step (rs : List (Nat × Rec)) (a x : Nat) (ds xs : List Nat)
    (hds : ds ++ [a] = x :: xs) :
    scanModel rs a ds [] =
      (match lookupRec rs x with
       | none => none
       | some r => if elig r then some (x, r, x :: xs) else none) := by
  unfold scanModel
  rw [hds]

theorem scanModel_cons_step (rs : List (Nat × Rec)) (a c : Nat) (ds cs : List Nat) :
    scanModel rs a ds (c :: cs) =
      (match lookupRec rs c with
       | none => scanModel rs c (ds ++ [a]) cs
       | some r =>
         if elig r then some (c, r, c :: (cs ++ (ds ++ [a])))
         else scanModel rs c (ds ++ [a]) cs) := rfl

theorem scanModel_all_false (rs : List (Nat × Rec)) :
    ∀ (cs : List Nat) (a : Nat) (ds : List Nat),
      (∀ x ∈ cs, eligAt rs x = false) →
      (∀ x, (ds ++ [a]).head? = some x → eligAt rs x = false) →
      scanModel rs a ds cs = none := by
  intro cs
  induction cs with
  | nil =>
    intro a ds _ hw
    cases hds : ds ++ [a] with
    | nil => exact absurd hds (by simp)
    | cons x xs =>
      rw [scanModel_nil_step rs a x ds xs hds]
      have hx : eligAt rs x = false := hw x (by rw [hds]; rfl)
      cases hl : lookupRec rs x with
      | none => simp
      | some r =>
        have he : elig r = false := by rw [eligAt, hl] at hx; exact hx
        simp [he]
  | cons c cs ih =>
    intro a ds hc hw
    have hcel : eligAt rs c = false := hc c (by simp)
    have hw' : ∀ x, ((ds ++ [a]) ++ [c]).head? = some x → eligAt rs x = false := by
      intro x hx
      rw [head?_append_left (ds ++ [a]) [c] (by simp)] at hx
      exact hw x hx
    have htl := ih c (ds ++ [a]) (fun x hx => hc x (by simp [hx])) hw'
    rw [scanModel_cons_step]
    cases hl : lookupRec rs c with
    | none => exact htl
    | some r =>
      have he : elig r = false := by rw [eligAt, hl] at hcel; exact hcel
      simp only [he, Bool.false_eq_true, if_false]
      exact htl

theorem scanModel_found_first (rs : List (Nat × Rec)) :
    ∀ (pre : List Nat) (a : Nat) (ds : List Nat) (c : Nat) (post : List Nat),
      (∀ x ∈ pre, eligAt rs x = false) → eligAt rs c = true →
      ∃ r q', scanModel rs a ds (pre ++ c :: post) = some (c, r, q') ∧
        lookupRec rs c = some r := by
  intro pre
  induction pre with
  | nil =>
    intro a ds c post _ hc
    cases hl : lookupRec rs c with
    | none => rw [eligAt, hl] at hc; exact absurd hc (by simp)
    | some r =>
      have he : elig r = true := by rw [eligAt, hl] at hc; exact hc
      refine ⟨r, c :: (post ++ (ds ++ [a])), ?_, rfl⟩
      rw [List.nil_append, scanModel_cons_step, hl]
      simp [he]
  | cons p pre ih =>
    intro a ds c post hp hc
    have hpel : eligAt rs p = false := hp p (by simp)
    have hrest : ∀ x ∈ pre, eligAt rs x = false := fun x hx => hp x (by simp [hx])
    obtain ⟨r, q', hm, hlk⟩ := ih p (ds ++ [a]) c post hrest hc
    refine ⟨r, q', ?_, hlk⟩
    rw [List.cons_append, scanModel_cons_step]
    cases hl : lookupRec rs p with
    | none => exact hm
    | some rp =>
      have he : elig rp = false := by rw [eligAt, hl] at hpel; exact hpel
      simp only [he, Bool.false_eq_true, if_false]
      exact hm

theorem scanModel_wrap_found (rs : List (Nat × Rec)) :
    ∀ (cs : List Nat) (a : Nat) (ds : List Nat),
      (∀ x ∈ cs, eligAt rs x = false) →
      ∀ x, (ds ++ [a]).head? = some x → eligAt rs x = true →
      ∃ r q', scanModel rs a ds cs = some (x, r, q') ∧ lookupRec rs x = some r := by
  intro cs
  induction cs with
  | nil =>
    intro a ds _ x hx hel
    cases hds : ds ++ [a] with
    | nil => exact absurd hds (by simp)
    | cons y ys =>
      rw [hds] at hx
      have hy : y = x := by simpa using hx
      subst hy
      cases hl : lookupRec rs y with
      | none => rw [eligAt, hl] at hel; exact absurd hel (by simp)
      | some r =>
        have he : elig r = true := by rw [eligAt, hl] at hel; exact hel
        refine ⟨r, y :: ys, ?_, rfl⟩
        rw [scanModel_nil_step rs a y ds ys hds, hl]
        simp [he]
  | cons c cs ih =>
    intro a ds hc x hx hel
    have hcel : eligAt rs c = false := hc c (by simp)
    have hx' : ((ds ++ [a]) ++ [c]).head? = some x := by
      rw [head?_append_left (ds ++ [a]) [c] (by simp)]
      exact hx
    obtain ⟨r, q', hm, hlk⟩ := ih c (ds ++ [a]) (fun z hz => hc z (by simp [hz])) x hx' hel
    refine ⟨r, q', ?_, hlk⟩
    rw [scanModel_cons_step]
    cases hl : lookupRec rs c with
    | none => exact hm
    | some rc =>
      have he : elig rc = false := by rw [eligAt, hl] at hcel; exact hcel
      simp only [he, Bool.false_eq_true, if_false]
      exact hm

/-- An eligible scan hit makes `co_schedule` switch to the found record, with
the found rotation as the new queue. -/
theorem sched_of_scan (s : Sys) (id : Nat) (r : Rec) (q' : List Nat)
    (hs : scanLoop s.recs s.queue.length s.queue = some (id, r, q'))
    (he : elig r = true) :
    ∃ s' evs, co_schedule s = SchedRes.switch s' evs ∧
      s'.current = id ∧ s'.queue = q' := by
  by_cases h1 : r.status = CoStatus.running
  · refine ⟨{ s with queue := q', current := id }, [Ev.resume id], ?_, rfl, rfl⟩
    simp [co_schedule, hs, h1]
  · by_cases h2 : r.status = CoStatus.new
    · refine ⟨{ s with queue := q', current := id, recs := updateRec s.recs id (fun rr => { rr with status := CoStatus.running }) }, [Ev.invoke id r.func r.arg], ?_, rfl, rfl⟩
      simp [co_schedule, hs, h1, h2]
    · exfalso
      rw [elig] at he
      simp [h1, h2] at he

/- ### Reclamation-loop lemmas -/

theorem rotLoop_found (h : Nat) :
    ∀ (xs ys passed : List Nat), h ∉ xs →
      rotLoop h passed (xs ++ h :: ys) = some (h :: (ys ++ (passed ++ xs))) := by
  intro xs
  induction xs with
  | nil =>
    intro ys passed _
    simp [rotLoop]
  | cons x xt ih =>
    intro ys passed hnx
    have hx : ¬ (x = h) := by
      intro hcon
      exact hnx (by simp [hcon])
    have hxt : h ∉ xt := fun hmem => hnx (by simp [hmem])
    rw [List.cons_append, rotLoop, if_neg hx, ih ys (passed ++ [x]) hxt]
    simp

theorem co_reclaim_eq (s : Sys) (h z : Nat) (zs rest : List Nat)
    (hq : s.queue = z :: zs) (hrot : rotateTo s.queue h = h :: rest) :
    co_reclaim s h = Except.ok { s with recs := eraseRec s.recs h, queue := rest } := by
  unfold co_reclaim
  rw [hq] at hrot
  rw [hq]
  simp only [hrot]
  simp

/- ### Characterization lemmas for the step function -/

theorem lookupRec_update (rs : List (Nat × Rec)) (j : Nat) (g : Rec → Rec) (i : Nat) :
    lookupRec (updateRec rs j g) i =
      if j = i then (lookupRec rs i).map g else lookupRec rs i := by
  by_cases h : j = i
  · subst h; simp [lookupRec_update_self]
  · simp [h, lookupRec_update_ne rs j i g h]

theorem lookupRec_update_none (rs : List (Nat × Rec)) (j : Nat) (g : Rec → Rec) (i : Nat) :
    lookupRec (updateRec rs j g) i = none ↔ lookupRec rs i = none := by
  rw [lookupRec_update]
  by_cases h : j = i
  · simp [h, Option.map_eq_none']
  · simp [h]

theorem lookupRec_erase_none (rs : List (Nat × Rec)) (j i : Nat) :
    lookupRec (eraseRec rs j) i = none ↔ (j = i ∨ lookupRec rs i = none) := by
  by_cases h : j = i
  · subst h; simp [lookupRec_erase_self]
  · simp [h, lookupRec_erase_ne rs j i h]

theorem co_reclaim_ok_shape (s : Sys) (h : Nat) (s' : Sys)
    (hok : co_reclaim s h = Except.ok s') :
    s'.recs = eraseRec s.recs h ∧ s'.current = s.current ∧ s'.nextId = s.nextId ∧
      ∃ rest, rotateTo s.queue h = h :: rest ∧ s'.queue = rest := by
  unfold co_reclaim at hok
  split at hok
  · exact absurd hok (by simp)
  · split at hok
    · exact absurd hok (by simp)
    · rename_i x rest hrot
      split at hok
      · rename_i hx
        cases hok
        subst hx
        exact ⟨rfl, rfl, rfl, rest, hrot, rfl⟩
      · exact absurd hok (by simp)

theorem co_schedule_none_eq (s : Sys)
    (hscan : scanLoop s.recs s.queue.length s.queue = none) :
    co_schedule s = SchedRes.exit := by
  unfold co_schedule
  rw [hscan]

theorem co_schedule_some_eq (s : Sys) (id : Nat) (r : Rec) (q' : List Nat)
    (hscan : scanLoop s.recs s.queue.length s.queue = some (id, r, q')) :
    co_schedule s =
      (if r.status = CoStatus.running then
        SchedRes.switch { s with queue := q', current := id } [Ev.resume id]
      else if r.status = CoStatus.new then
        SchedRes.switch { s with queue := q', current := id, recs := updateRec s.recs id (fun rr => { rr with status := CoStatus.running }) } [Ev.invoke id r.func r.arg]
      else
        SchedRes.switch { s with queue := q', current := id } []) := by
  unfold co_schedule
  rw [hscan]

theorem sched_switch_shape (s s' : Sys) (evs : List Ev)
    (h : co_schedule s = SchedRes.switch s' evs) :
    ∃ id r q', scanLoop s.recs s.queue.length s.queue = some (id, r, q') ∧
      lookupRec s.recs id = some r ∧ elig r = true ∧ s'.current = id ∧
      s'.queue = q' ∧ s'.nextId = s.nextId ∧
      ((r.status = CoStatus.running ∧ s'.recs = s.recs ∧ evs = [Ev.resume id]) ∨
       (r.status = CoStatus.new ∧
         s'.recs = updateRec s.recs id (fun rr => { rr with status := CoStatus.running }) ∧
         evs = [Ev.invoke id r.func r.arg])) := by
  cases hscan : scanLoop s.recs s.queue.length s.queue with
  | none =>
    rw [co_schedule_none_eq s hscan] at h
    exact absurd h (by simp)
  | some p =>
    obtain ⟨id, r, q'⟩ := p
    obtain ⟨hlk, hel, _⟩ := scanLoop_found s.recs _ _ _ _ _ hscan
    rw [co_schedule_some_eq s id r q' hscan] at h
    by_cases h1 : r.status = CoStatus.running
    · rw [if_pos h1] at h
      cases h
      exact ⟨id, r, q', rfl, hlk, hel, rfl, rfl, rfl, Or.inl ⟨h1, rfl, rfl⟩⟩
    · rw [if_neg h1] at h
      by_cases h2 : r.status = CoStatus.new
      · rw [if_pos h2] at h
        cases h
        exact ⟨id, r, q', rfl, hlk, hel, rfl, rfl, rfl, Or.inr ⟨h2, rfl, rfl⟩⟩
      · exfalso
        rw [elig] at hel
        simp [h1, h2] at hel

theorem sched_recs_none (s s' : Sys) (evs : List Ev) (id : Nat)
    (h : co_schedule s = SchedRes.switch s' evs) :
    (lookupRec s'.recs id = none ↔ lookupRec s.recs id = none) := by
  obtain ⟨i, r, q', _, _, _, _, _, _, hor⟩ := sched_switch_shape s s' evs h
  rcases hor with ⟨_, hrecs, _⟩ | ⟨_, hrecs, _⟩
  · rw [hrecs]
  · rw [hrecs, lookupRec_update_none]

/-- Exhaustive shape of a non-halting step: the current record exists, and
the step is one of the six source paths (entry return, yield, spawn,
wait-on-dead, wait-and-suspend, post-wait reclamation). -/
theorem step_next_shape (s s' : Sys) (evs : List Ev)
    (hstep : stepSys s = StepAns.next s' evs) :
    ∃ r, lookupRec s.recs s.current = some r ∧
    ((r.rem = [] ∧ r.main = false ∧
       ∃ evs2, co_schedule (deadState s r.waiter) = SchedRes.switch s' evs2 ∧
         evs = Ev.died s.current :: evs2) ∨
     (∃ rest, r.rem = Op.yield :: rest ∧
       co_schedule (setRem s rest) = SchedRes.switch s' evs) ∨
     (∃ f a body rest, r.rem = Op.spawn f a body :: rest ∧
       s' = (co_start (setRem s rest) (some f) (some a) body false).1 ∧
       evs = [Ev.spawned s.nextId (some f) (some a)]) ∨
     (∃ h rest hr, r.rem = Op.wait h :: rest ∧
       lookupRec (setRem s rest).recs h = some hr ∧ hr.status = CoStatus.dead ∧
       co_reclaim (setRem s rest) h = Except.ok s' ∧
       evs = [Ev.waitOn s.current h]) ∨
     (∃ h rest hr evs2, r.rem = Op.wait h :: rest ∧
       lookupRec (setRem s rest).recs h = some hr ∧ hr.status ≠ CoStatus.dead ∧
       co_schedule (co_wait_register (setRem s rest) h) = SchedRes.switch s' evs2 ∧
       evs = Ev.waitOn s.current h :: evs2) ∨
     (∃ h rest, r.rem = Op.reclaim h :: rest ∧
       co_reclaim (setRem s rest) h = Except.ok s' ∧ evs = [])) := by
  unfold stepSys at hstep
  split at hstep
  · exact absurd hstep (by simp)
  · rename_i r hr
    refine ⟨r, hr, ?_⟩
    split at hstep
    · rename_i hrem
      split at hstep
      · exact absurd hstep (by simp)
      · rename_i hmain
        cases hres : co_schedule (deadState s r.waiter) with
        | exit =>
          rw [hres] at hstep
          exact absurd hstep (by simp [schedToStep])
        | switch s2 evs2 =>
          rw [hres] at hstep
          simp only [schedToStep] at hstep
          cases hstep
          exact Or.inl ⟨hrem, by simpa using hmain, evs2, rfl, by simp⟩
    · rename_i rest hrem
      cases hres : co_schedule (setRem s rest) with
      | exit =>
        rw [hres] at hstep
        exact absurd hstep (by simp [schedToStep])
      | switch s2 evs2 =>
        rw [hres] at hstep
        simp only [schedToStep] at hstep
        cases hstep
        exact Or.inr (Or.inl ⟨rest, hrem, hres⟩)
    · rename_i f a body rest hrem
      cases hstep
      exact Or.inr (Or.inr (Or.inl ⟨f, a, body, rest, hrem, rfl, rfl⟩))
    · rename_i h rest hrem
      unfold co_wait_step at hstep
      split at hstep
      · exact absurd hstep (by simp)
      · rename_i hr2 hlk
        split at hstep
        · rename_i hdead
          cases hok : co_reclaim (setRem s rest) h with
          | error e =>
            rw [hok] at hstep
            exact absurd hstep (by simp [reclaimToStep])
          | ok s2 =>
            rw [hok] at hstep
            simp only [reclaimToStep] at hstep
            cases hstep
            exact Or.inr (Or.inr (Or.inr (Or.inl ⟨h, rest, hr2, hrem, hlk, hdead, hok, by simp [setRem]⟩)))
        · rename_i hnd
          cases hres : co_schedule (co_wait_register (setRem s rest) h) with
          | exit =>
            rw [hres] at hstep
            exact absurd hstep (by simp [schedToStep])
          | switch s2 evs2 =>
            rw [hres] at hstep
            simp only [schedToStep] at hstep
            cases hstep
            exact Or.inr (Or.inr (Or.inr (Or.inr (Or.inl
              ⟨h, rest, hr2, evs2, hrem, hlk, hnd, hres, by simp [setRem]⟩))))
    · rename_i h rest hrem
      cases hok : co_reclaim (setRem s rest) h with
      | error e =>
        rw [hok] at hstep
        exact absurd hstep (by simp [reclaimToStep])
      | ok s2 =>
        rw [hok] at hstep
        simp only [reclaimToStep] at hstep
        cases hstep
        exact Or.inr (Or.inr (Or.inr (Or.inr (Or.inr ⟨h, rest, hrem, hok, rfl⟩))))

/- ### Field-tracking lemmas for the intermediate states -/

theorem setRem_recs_none (s : Sys) (rest : List Op) (id : Nat) :
    lookupRec (setRem s rest).recs id = none ↔ lookupRec s.recs id = none := by
  simp only [setRem]
  exact lookupRec_update_none _ _ _ _

theorem deadState_recs_none (s : Sys) (wo : Option Nat) (id : Nat) :
    lookupRec (deadState s wo).recs id = none ↔ lookupRec s.recs id = none := by
  cases wo with
  | none => simp only [deadState]; exact lookupRec_update_none _ _ _ _
  | some w =>
    simp only [deadState]
    rw [lookupRec_update_none, lookupRec_update_none]

theorem register_recs_none (s : Sys) (h id : Nat) :
    lookupRec (co_wait_register s h).recs id = none ↔ lookupRec s.recs id = none := by
  simp only [co_wait_register]
  rw [lookupRec_update_none, lookupRec_update_none]

theorem status_setRem (s : Sys) (rest : List Op) (id : Nat) (r : Rec)
    (hl : lookupRec s.recs id = some r) :
    ∃ r2, lookupRec (setRem s rest).recs id = some r2 ∧
      r2.func = r.func ∧ r2.arg = r.arg ∧ r2.main = r.main ∧
      r2.status = r.status ∧ r2.waiter = r.waiter ∧
      r2.rem = (if id = s.current then rest else r.rem) := by
  simp only [setRem]
  by_cases hc : s.current = id
  · subst hc
    refine ⟨{ r with rem := rest }, ?_, rfl, rfl, rfl, rfl, rfl, by simp⟩
    rw [lookupRec_update_self, hl]
    rfl
  · refine ⟨r, ?_, rfl, rfl, rfl, rfl, rfl, by simp [Ne.symm hc]⟩
    rw [lookupRec_update_ne _ _ _ _ hc, hl]

theorem status_deadState (s : Sys) (wo : Option Nat) (i : Nat) (r : Rec)
    (hl : lookupRec s.recs i = some r) :
    ∃ r2, lookupRec (deadState s wo).recs i = some r2 ∧
      r2.func = r.func ∧ r2.arg = r.arg ∧ r2.main = r.main ∧
      r2.rem = r.rem ∧ r2.waiter = r.waiter ∧
      r2.status = (if wo = some i then CoStatus.running
                   else if i = s.current then CoStatus.dead else r.status) := by
  cases wo with
  | none =>
    simp only [deadState]
    by_cases hc : s.current = i
    · refine ⟨{ r with status := CoStatus.dead }, ?_, rfl, rfl, rfl, rfl, rfl, by simp [hc.symm]⟩
      rw [hc, lookupRec_update_self, hl]
      rfl
    · refine ⟨r, ?_, rfl, rfl, rfl, rfl, rfl, by simp [Ne.symm hc]⟩
      rw [lookupRec_update_ne _ _ _ _ hc, hl]
  | some w =>
    simp only [deadState]
    by_cases hw : w = i
    · by_cases hc : s.current = i
      · refine ⟨{ r with status := CoStatus.running }, ?_, rfl, rfl, rfl, rfl, rfl, by simp [hw]⟩
        rw [hw, hc, lookupRec_update_self, lookupRec_update_self, hl]
        rfl
      · refine ⟨{ r with status := CoStatus.running }, ?_, rfl, rfl, rfl, rfl, rfl, by simp [hw]⟩
        rw [hw, lookupRec_update_self, lookupRec_update_ne _ _ _ _ hc, hl]
        rfl
    · by_cases hc : s.current = i
      · refine ⟨{ r with status := CoStatus.dead }, ?_, rfl, rfl, rfl, rfl, rfl, ?_⟩
        · rw [lookupRec_update_ne _ _ _ _ hw, hc, lookupRec_update_self, hl]
          rfl
        · rw [if_neg (fun hcon => hw (Option.some.inj hcon)), if_pos hc.symm]
      · refine ⟨r, ?_, rfl, rfl, rfl, rfl, rfl, ?_⟩
        · rw [lookupRec_update_ne _ _ _ _ hw, lookupRec_update_ne _ _ _ _ hc, hl]
        · rw [if_neg (fun hcon => hw (Option.some.inj hcon)), if_neg (Ne.symm hc)]

theorem status_register (s : Sys) (h i : Nat) (r : Rec)
    (hl : lookupRec s.recs i = some r) :
    ∃ r2, lookupRec (co_wait_register s h).recs i = some r2 ∧
      r2.func = r.func ∧ r2.arg = r.arg ∧ r2.main = r.main ∧
      r2.status = (if i = s.current then CoStatus.waiting else r.status) ∧
      r2.waiter = (if i = h then some s.current else r.waiter) := by
  simp only [co_wait_register]
  by_cases hh : h = i
  · by_cases hc : s.current = i
    · refine ⟨{ r with waiter := some s.current, status := CoStatus.waiting, rem := Op.reclaim h :: r.rem }, ?_, rfl, rfl, rfl, by simp [hc.symm], by simp [hh.symm]⟩
      rw [hh, hc, lookupRec_update_self, lookupRec_update_self, hl]
      rfl
    · refine ⟨{ r with waiter := some s.current }, ?_, rfl, rfl, rfl, by simp [Ne.symm hc], by simp [hh.symm]⟩
      rw [lookupRec_update_ne _ _ _ _ hc, hh, lookupRec_update_self, hl]
      rfl
  · by_cases hc : s.current = i
    · refine ⟨{ r with status := CoStatus.waiting, rem := Op.reclaim h :: r.rem }, ?_, rfl, rfl, rfl, by simp [hc.symm], by simp [Ne.symm hh]⟩
      rw [hc, lookupRec_update_self, lookupRec_update_ne _ _ _ _ hh, hl]
      rfl
    · refine ⟨r, ?_, rfl, rfl, rfl, by simp [Ne.symm hc], by simp [Ne.symm hh]⟩
      rw [lookupRec_update_ne _ _ _ _ hc, lookupRec_update_ne _ _ _ _ hh, hl]

theorem statusOf_eq_some (s : Sys) (i : Nat) (st : CoStatus) :
    statusOf s i = some st ↔ ∃ r, lookupRec s.recs i = some r ∧ r.status = st := by
  unfold statusOf
  cases lookupRec s.recs i <;> simp

theorem co_wait_step_some (s : Sys) (h : Nat) (hr : Rec)
    (hl : lookupRec s.recs h = some hr) :
    co_wait_step s h =
      (if hr.status = CoStatus.dead then
        reclaimToStep (co_reclaim s h) [Ev.waitOn s.current h]
       else schedToStep (co_schedule (co_wait_register s h)) [Ev.waitOn s.current h]) := by
  unfold co_wait_step
  rw [hl]

theorem stepSys_some (s : Sys) (r : Rec) (hr : lookupRec s.recs s.current = some r) :
    stepSys s =
      (match r.rem with
       | [] => if r.main then StepAns.halt Halt.mainReturned []
               else schedToStep (co_schedule (deadState s r.waiter)) [Ev.died s.current]
       | Op.yield :: rest => schedToStep (co_schedule (setRem s rest)) []
       | Op.spawn f a body :: rest =>
         StepAns.next (co_start (setRem s rest) (some f) (some a) body false).1
           [Ev.spawned s.nextId (some f) (some a)]
       | Op.wait h :: rest => co_wait_step (setRem s rest) h
       | Op.reclaim h :: rest => reclaimToStep (co_reclaim (setRem s rest) h) []) := by
  unfold stepSys
  rw [hr]

/-- A record that is not `NEW` keeps its status across one scheduling switch:
the resume branch does not touch the heap, and the first-run branch only
promotes the selected `NEW` record. -/
theorem sched_status_frozen (sb s' : Sys) (evs : List Ev) (i : Nat) (r2 : Rec)
    (hsched : co_schedule sb = SchedRes.switch s' evs)
    (hl2 : lookupRec sb.recs i = some r2) (hne : r2.status ≠ CoStatus.new) :
    statusOf s' i = some r2.status := by
  obtain ⟨sid, rsid, q', _, hlksid, _, _, _, _, hor⟩ := sched_switch_shape _ _ _ hsched
  rcases hor with ⟨_, hrecs, _⟩ | ⟨hst, hrecs, _⟩
  · unfold statusOf
    rw [hrecs, hl2]
    rfl
  · by_cases hws : sid = i
    · subst hws
      rw [hlksid] at hl2
      cases hl2
      exact absurd hst hne
    · unfold statusOf
      rw [hrecs, lookupRec_update_ne _ _ _ _ hws, hl2]
      rfl

/- ### Concrete states used by the witnesses -/

/-- A non-primordial record with entry code 3, argument 4 and no program left. -/
def recEx (st : CoStatus) : Rec :=
  { func := some 3, arg := some 4, status := st, waiter := none, main := false, rem := [] }

/-- A primordial-style record. -/
def mainRecEx (st : CoStatus) (prog : List Op) : Rec :=
  { func := none, arg := none, status := st, waiter := none, main := true, rem := prog }

/-- Primordial waiting, one running peer: the scan must pick the peer. -/
def exSysA : Sys :=
  { recs := [(0, mainRecEx CoStatus.waiting []), (1, recEx CoStatus.running)],
    queue := [0, 1], current := 0, nextId := 2 }

/-- Nothing eligible: primordial waiting, peer dead. -/
def exSysB : Sys :=
  { recs := [(0, mainRecEx CoStatus.waiting []), (1, recEx CoStatus.dead)],
    queue := [0, 1], current := 0, nextId := 2 }

/-- Dead record 1 sits between 0 and 2 in the queue. -/
def exSysC : Sys :=
  { recs := [(0, mainRecEx CoStatus.running []), (1, recEx CoStatus.dead),
             (2, recEx CoStatus.running)],
    queue := [0, 1, 2], current := 0, nextId := 3 }


/-- A record with a registered waiter, mid-execution, about to finish. -/
def exSysE : Sys :=
  { recs := [(0, mainRecEx CoStatus.waiting []),
             (2, { recEx CoStatus.running with waiter := some 0 })],
    queue := [0, 2], current := 2, nextId := 3 }

/-- The successor state of `exSysE`: 2 died, its waiter 0 was woken and
resumed. -/
def exSysEnext : Sys :=
  { recs := [(0, mainRecEx CoStatus.running []),
             (2, { recEx CoStatus.dead with waiter := some 0 })],
    queue := [0, 2], current := 0, nextId := 3 }

/-- Current coroutine about to call `co_wait` on the dead record 1. -/
def exSysF : Sys :=
  { recs := [(0, mainRecEx CoStatus.running [Op.wait 1]), (1, recEx CoStatus.dead)],
    queue := [0, 1], current := 0, nextId := 2 }

/-- The successor state of `exSysF`: record 1 reclaimed without yielding. -/
def exSysFnext : Sys :=
  { recs := [(0, mainRecEx CoStatus.running [])], queue := [0], current := 0,
    nextId := 2 }

/-- C2: on the non-resumed path of `co_yield`, the scan starts just after the
current head position, proceeds in insertion order wrapping around at most
once (the head itself is the last candidate), selects the first record whose
status is `CO_STATUS_RUNNING` (the spec's Runnable) or `CO_STATUS_NEW`,
skipping every other status; if no eligible record exists the scheduler takes
the `exit(0)` path, terminating the process cleanly.  Conjuncts: (1) no
eligible record anywhere means `co_schedule` exits; (2) the exit result is
the clean-termination halt; (3) the first eligible candidate `c` after the
head (all earlier candidates ineligible) is selected, becoming current, with
the queue head repositioned at its node (a rotation of the queue); (4) when
every later node is ineligible the scan wraps around to the head itself and
selects it if eligible. -/
theorem c2_yield_scan :
    (∀ (s : Sys) (h : Nat) (t : List Nat), s.queue = h :: t →
      (∀ x ∈ h :: t, eligAt s.recs x = false) → co_schedule s = SchedRes.exit) ∧
    (∀ pre, schedToStep SchedRes.exit pre = StepAns.halt Halt.exitZero pre) ∧
    (∀ (s : Sys) (h : Nat) (t pre post : List Nat) (c : Nat), s.queue = h :: t →
      t = pre ++ c :: post → (∀ x ∈ pre, eligAt s.recs x = false) →
      eligAt s.recs c = true →
      ∃ r q' s' evs, scanLoop s.recs s.queue.length s.queue = some (c, r, q') ∧
        lookupRec s.recs c = some r ∧ elig r = true ∧ q'.head? = some c ∧
        IsRot s.queue q' ∧ co_schedule s = SchedRes.switch s' evs ∧
        s'.current = c ∧ s'.queue = q') ∧
    (∀ (s : Sys) (h : Nat) (t : List Nat), s.queue = h :: t →
      (∀ x ∈ t, eligAt s.recs x = false) → eligAt s.recs h = true →
      ∃ r q' s' evs, scanLoop s.recs s.queue.length s.queue = some (h, r, q') ∧
        lookupRec s.recs h = some r ∧ elig r = true ∧ q'.head? = some h ∧
        IsRot s.queue q' ∧ co_schedule s = SchedRes.switch s' evs ∧
        s'.current = h ∧ s'.queue = q') := by
  refine ⟨?_, ?_, ?_, ?_⟩
  · intro s h t hq hall
    unfold co_schedule
    rw [hq, scanLoop_queue]
    have hnone : scanModel s.recs h [] t = none := by
      apply scanModel_all_false
      · intro x hx; exact hall x (by simp [hx])
      · intro x hx
        have hxh : x = h := by simpa using hx.symm
        subst hxh
        exact hall x (by simp)
    rw [hnone]
  · intro pre; rfl
  · intro s h t pre post c hq ht hpre hc
    obtain ⟨r, q', hm, _⟩ := scanModel_found_first s.recs pre h [] c post hpre hc
    have hscan : scanLoop s.recs s.queue.length s.queue = some (c, r, q') := by
      rw [hq, scanLoop_queue, ht]; exact hm
    obtain ⟨hlk2, hel, hhd⟩ := scanLoop_found s.recs _ _ _ _ _ hscan
    have hrot : IsRot s.queue q' :=
      scanLoop_isRot s.recs _ s.queue s.queue c r q' (isRot_refl _) hscan
    obtain ⟨s', evs, hsw, hcur, hqu⟩ := sched_of_scan s c r q' hscan hel
    exact ⟨r, q', s', evs, hscan, hlk2, hel, hhd, hrot, hsw, hcur, hqu⟩
  · intro s h t hq hall hh
    obtain ⟨r, q', hm, _⟩ := scanModel_wrap_found s.recs t h [] hall h rfl hh
    have hscan : scanLoop s.recs s.queue.length s.queue = some (h, r, q') := by
      rw [hq, scanLoop_queue]; exact hm
    obtain ⟨hlk2, hel, hhd⟩ := scanLoop_found s.recs _ _ _ _ _ hscan
    have hrot : IsRot s.queue q' :=
      scanLoop_isRot s.recs _ s.queue s.queue h r q' (isRot_refl _) hscan
    obtain ⟨s', evs, hsw, hcur, hqu⟩ := sched_of_scan s h r q' hscan hel
    exact ⟨r, q', s', evs, hscan, hlk2, hel, hhd, hrot, hsw, hcur, hqu⟩

/-- Witness for C2: in `exSysB` (primordial waiting, peer dead) the scan
finds nothing and the scheduler exits; in `exSysA` the scan skips the waiting
head and selects the running record 1. -/
theorem c2_yield_scan_witness :
    co_schedule exSysB = SchedRes.exit ∧
    (∃ r q' s' evs,
      scanLoop exSysA.recs exSysA.queue.length exSysA.queue = some (1, r, q') ∧
      lookupRec exSysA.recs 1 = some r ∧ elig r = true ∧ q'.head? = some 1 ∧
      IsRot exSysA.queue q' ∧ co_schedule exSysA = SchedRes.switch s' evs ∧
      s'.current = 1 ∧ s'.queue = q') :=
  ⟨c2_yield_scan.1 exSysB 0 [1] rfl (by decide),
   c2_yield_scan.2.2.1 exSysA 0 [1] [] [] 1 rfl rfl (by simp) (by decide)⟩

/-- C9: during reclamation, `co_wait` repositions the global queue head at
the target's node and then removes that node, so afterwards the head is the
node that followed the reclaimed target's former position (and the target's
record is freed).  The next scan therefore starts just after the target's
former position, not just after the caller's own node. -/
theorem c9_wait_repositions_head :
    ∀ (s : Sys) (h : Nat) (xs ys : List Nat), s.queue = xs ++ h :: ys → h ∉ xs →
      rotateTo s.queue h = h :: (ys ++ xs) ∧
      co_reclaim s h =
        Except.ok { s with recs := eraseRec s.recs h, queue := ys ++ xs } ∧
      lookupRec (eraseRec s.recs h) h = none := by
  intro s h xs ys hq hnx
  have hrot : rotateTo s.queue h = h :: (ys ++ xs) := by
    rw [hq, rotateTo, rotLoop_found h xs ys [] hnx]
    simp
  refine ⟨hrot, ?_, lookupRec_erase_self s.recs h⟩
  cases xs with
  | nil => exact co_reclaim_eq s h h ys (ys ++ []) (by simpa using hq) hrot
  | cons x xt =>
    exact co_reclaim_eq s h x (xt ++ h :: ys) (ys ++ x :: xt) (by simpa using hq) hrot

/-- Witness for C9: reclaiming record 1 from queue `[0, 1, 2]` leaves the
queue `[2, 0]` — the head is 2, the node after the target's former position. -/
theorem c9_wait_repositions_head_witness :
    rotateTo exSysC.queue 1 = 1 :: ([2] ++ [0]) ∧
    co_reclaim exSysC 1 =
      Except.ok { exSysC with recs := eraseRec exSysC.recs 1, queue := [2] ++ [0] } ∧
    lookupRec (eraseRec exSysC.recs 1) 1 = none :=
  c9_wait_repositions_head exSysC 1 [0] [2] rfl (by decide)

/-- C4: `co_wait` on an already-dead target proceeds directly to reclamation
without yielding or suspending: the scheduler is not invoked, the caller
stays current, the target's node is removed from the ready queue and the
target record is freed.  Moreover (second conjunct) reclamation inside
`co_wait` — the `wait` operation itself or its post-suspension `reclaim`
continuation — is the only step of the runtime that destroys a record. -/
theorem c4_wait_dead_reclaims :
    (∀ (s : Sys) (h : Nat) (hr : Rec), lookupRec s.recs h = some hr →
      hr.status = CoStatus.dead →
      co_wait_step s h = reclaimToStep (co_reclaim s h) [Ev.waitOn s.current h] ∧
      (∀ s', co_reclaim s h = Except.ok s' →
        co_wait_step s h = StepAns.next s' [Ev.waitOn s.current h] ∧
        s'.current = s.current ∧ s'.recs = eraseRec s.recs h ∧
        lookupRec s'.recs h = none)) ∧
    (∀ (s s' : Sys) (evs : List Ev) (i : Nat), stepSys s = StepAns.next s' evs →
      lookupRec s.recs i ≠ none → lookupRec s'.recs i = none →
      ∃ r rest, lookupRec s.recs s.current = some r ∧
        (r.rem = Op.wait i :: rest ∨ r.rem = Op.reclaim i :: rest)) := by
  constructor
  · intro s h hr hl hdead
    have hstep : co_wait_step s h =
        reclaimToStep (co_reclaim s h) [Ev.waitOn s.current h] := by
      rw [co_wait_step_some s h hr hl, if_pos hdead]
    refine ⟨hstep, ?_⟩
    intro s' hok
    obtain ⟨hrecs, hcur, _, _⟩ := co_reclaim_ok_shape s h s' hok
    refine ⟨?_, hcur, hrecs, ?_⟩
    · rw [hstep, hok]
      rfl
    · rw [hrecs]
      exact lookupRec_erase_self _ _
  · intro s s' evs i hstep hn hn'
    obtain ⟨r, hr, harms⟩ := step_next_shape s s' evs hstep
    rcases harms with ⟨hrem, hmain, evs2, hsched, hevs⟩ | ⟨rest, hrem, hsched⟩ |
      ⟨f, a, body, rest, hrem, hs', hevs⟩ | ⟨h, rest, hr2, hrem, hlk, hdead, hok, hevs⟩ |
      ⟨h, rest, hr2, evs2, hrem, hlk, hnd, hsched, hevs⟩ | ⟨h, rest, hrem, hok, hevs⟩
    · exact absurd ((deadState_recs_none s r.waiter i).mp
        ((sched_recs_none _ _ _ i hsched).mp hn')) hn
    · exact absurd ((setRem_recs_none s rest i).mp
        ((sched_recs_none _ _ _ i hsched).mp hn')) hn
    · exfalso
      subst hs'
      simp only [co_start, lookupRec] at hn'
      split at hn'
      · exact absurd hn' (by simp)
      · exact hn ((setRem_recs_none s rest i).mp hn')
    · obtain ⟨hrecs, _, _, _⟩ := co_reclaim_ok_shape _ _ _ hok
      rw [hrecs] at hn'
      rcases (lookupRec_erase_none _ _ _).mp hn' with hi | hrest2
      · exact ⟨r, rest, hr, Or.inl (hi ▸ hrem)⟩
      · exact absurd ((setRem_recs_none s rest i).mp hrest2) hn
    · exact absurd ((setRem_recs_none s rest i).mp
        ((register_recs_none (setRem s rest) h i).mp
          ((sched_recs_none _ _ _ i hsched).mp hn'))) hn
    · obtain ⟨hrecs, _, _, _⟩ := co_reclaim_ok_shape _ _ _ hok
      rw [hrecs] at hn'
      rcases (lookupRec_erase_none _ _ _).mp hn' with hi | hrest2
      · exact ⟨r, rest, hr, Or.inr (hi ▸ hrem)⟩
      · exact absurd ((setRem_recs_none s rest i).mp hrest2) hn

/-- Witness for C4: waiting on the dead record 1 of `exSysC` reclaims it
without scheduling, and the one step of `exSysF` that frees record 1 is
exactly its `wait 1` operation. -/
theorem c4_wait_dead_reclaims_witness :
    co_wait_step exSysC 1 = reclaimToStep (co_reclaim exSysC 1) [Ev.waitOn 0 1] ∧
    (∃ r rest, lookupRec exSysF.recs exSysF.current = some r ∧
      (r.rem = Op.wait 1 :: rest ∨ r.rem = Op.reclaim 1 :: rest)) :=
  ⟨(c4_wait_dead_reclaims.1 exSysC 1 (recEx CoStatus.dead) rfl rfl).1,
   c4_wait_dead_reclaims.2 exSysF exSysFnext [Ev.waitOn 0 1] 1 rfl
     (by simp [exSysF, lookupRec]) rfl⟩

/-- C3: `co_wait` on a live (non-`DEAD`) target registers the caller as the
target's waiter, marks the caller `WAITING` (saving the reclamation
continuation), and invokes the scheduler — the caller is suspended.  The
second conjunct shows the only step that turns a `WAITING` record back into
`RUNNING` is the entry-return (death) step of a coroutine whose registered
waiter it is; in that very step the target's status becomes `DEAD`, so the
caller can resume (and `co_wait` return) only strictly after the target has
transitioned to `DEAD`. -/
theorem c3_wait_blocks_until_dead :
    (∀ (s : Sys) (h : Nat) (hr rc : Rec), lookupRec s.recs h = some hr →
      hr.status ≠ CoStatus.dead → lookupRec s.recs s.current = some rc →
      h ≠ s.current →
      co_wait_step s h =
        schedToStep (co_schedule (co_wait_register s h)) [Ev.waitOn s.current h] ∧
      lookupRec (co_wait_register s h).recs h =
        some { hr with waiter := some s.current } ∧
      lookupRec (co_wait_register s h).recs s.current =
        some { rc with status := CoStatus.waiting, rem := Op.reclaim h :: rc.rem }) ∧
    (∀ (s s' : Sys) (evs : List Ev) (w : Nat), stepSys s = StepAns.next s' evs →
      statusOf s w = some CoStatus.waiting → statusOf s' w = some CoStatus.running →
      ∃ r, lookupRec s.recs s.current = some r ∧ r.rem = [] ∧ r.main = false ∧
        r.waiter = some w ∧
        (w ≠ s.current → statusOf s' s.current = some CoStatus.dead)) := by
  constructor
  · intro s h hr rc hl hnd hlc hne
    refine ⟨?_, ?_, ?_⟩
    · rw [co_wait_step_some s h hr hl, if_neg hnd]
    · simp only [co_wait_register]
      rw [lookupRec_update_ne _ _ _ _ (Ne.symm hne), lookupRec_update_self, hl]
      rfl
    · simp only [co_wait_register]
      rw [lookupRec_update_self, lookupRec_update_ne _ _ _ _ hne, hlc]
      rfl
  · intro s s' evs w hstep hw hw'
    obtain ⟨rw0, hlw, hstw⟩ := (statusOf_eq_some s w _).mp hw
    obtain ⟨r, hr, harms⟩ := step_next_shape s s' evs hstep
    rcases harms with ⟨hrem, hmain, evs2, hsched, hevs⟩ | ⟨rest, hrem, hsched⟩ |
      ⟨f, a, body, rest, hrem, hs', hevs⟩ | ⟨h, rest, hr2, hrem, hlk, hdead, hok, hevs⟩ |
      ⟨h, rest, hr2, evs2, hrem, hlk, hnd, hsched, hevs⟩ | ⟨h, rest, hrem, hok, hevs⟩
    · -- entry-return path: the only possible wake-up
      obtain ⟨rw2, hlw2, _, _, _, _, _, hstw2⟩ :=
        status_deadState s r.waiter w rw0 hlw
      by_cases hww : r.waiter = some w
      · refine ⟨r, hr, hrem, hmain, hww, ?_⟩
        intro hnwc
        obtain ⟨rc2, hlc2, _, _, _, _, _, hstc2⟩ :=
          status_deadState s r.waiter s.current r hr
        have hstc3 : rc2.status = CoStatus.dead := by
          rw [hstc2, if_neg ?hneq, if_pos rfl]
          case hneq =>
            rw [hww]
            intro hcon
            exact hnwc (Option.some.inj hcon)
        have := sched_status_frozen _ _ _ s.current rc2 hsched hlc2
          (by rw [hstc3]; intro hcon; cases hcon)
        rw [hstc3] at this
        exact this
      · exfalso
        have hstw3 : rw2.status ≠ CoStatus.new ∧ rw2.status ≠ CoStatus.running := by
          rw [hstw2, if_neg hww]
          by_cases hwc : w = s.current
          · rw [if_pos hwc]
            exact ⟨fun hcon => CoStatus.noConfusion hcon, fun hcon => CoStatus.noConfusion hcon⟩
          · rw [if_neg hwc, hstw]
            exact ⟨fun hcon => CoStatus.noConfusion hcon, fun hcon => CoStatus.noConfusion hcon⟩
        have := sched_status_frozen _ _ _ w rw2 hsched hlw2 hstw3.1
        rw [hw'] at this
        exact hstw3.2 (Option.some.inj this).symm
    · -- plain yield: no status can change to RUNNING except a NEW record
      exfalso
      obtain ⟨rw2, hlw2, _, _, _, hstw2, _, _⟩ := status_setRem s rest w rw0 hlw
      have hne2 : rw2.status ≠ CoStatus.new := by
        rw [hstw2, hstw]; intro hcon; cases hcon
      have := sched_status_frozen _ _ _ w rw2 hsched hlw2 hne2
      rw [hw', hstw2, hstw] at this
      cases Option.some.inj this
    · -- spawn: only creates a fresh NEW record
      exfalso
      subst hs'
      obtain ⟨rw2, hlw2, _, _, _, hstw2, _, _⟩ := status_setRem s rest w rw0 hlw
      unfold statusOf at hw'
      simp only [co_start, lookupRec] at hw'
      split at hw'
      · simp at hw'
      · rw [hlw2] at hw'
        simp [hstw2, hstw] at hw'
    · -- wait on a dead target: reclamation only erases
      exfalso
      obtain ⟨hrecs, _, _, _⟩ := co_reclaim_ok_shape _ _ _ hok
      unfold statusOf at hw'
      rw [hrecs] at hw'
      by_cases hhw : h = w
      · rw [hhw, lookupRec_erase_self] at hw'
        simp at hw'
      · rw [lookupRec_erase_ne _ _ _ hhw] at hw'
        obtain ⟨rw2, hlw2, _, _, _, hstw2, _, _⟩ := status_setRem s rest w rw0 hlw
        rw [hlw2] at hw'
        simp [hstw2, hstw] at hw'
    · -- wait on a live target: the caller only becomes WAITING
      exfalso
      obtain ⟨rw2, hlw2, _, _, _, hstw2, _, _⟩ := status_setRem s rest w rw0 hlw
      obtain ⟨rw3, hlw3, _, _, _, hstw3, _⟩ :=
        status_register (setRem s rest) h w rw2 hlw2
      have hne3 : rw3.status ≠ CoStatus.new ∧ rw3.status ≠ CoStatus.running := by
        rw [hstw3]
        by_cases hwc : w = (setRem s rest).current
        · rw [if_pos hwc]
          exact ⟨fun hcon => CoStatus.noConfusion hcon, fun hcon => CoStatus.noConfusion hcon⟩
        · rw [if_neg hwc, hstw2, hstw]
          exact ⟨fun hcon => CoStatus.noConfusion hcon, fun hcon => CoStatus.noConfusion hcon⟩
      have := sched_status_frozen _ _ _ w rw3 hsched hlw3 hne3.1
      rw [hw'] at this
      exact hne3.2 (Option.some.inj this).symm
    · -- post-wait reclamation: only erases
      exfalso
      obtain ⟨hrecs, _, _, _⟩ := co_reclaim_ok_shape _ _ _ hok
      unfold statusOf at hw'
      rw [hrecs] at hw'
      by_cases hhw : h = w
      · rw [hhw, lookupRec_erase_self] at hw'
        simp at hw'
      · rw [lookupRec_erase_ne _ _ _ hhw] at hw'
        obtain ⟨rw2, hlw2, _, _, _, hstw2, _, _⟩ := status_setRem s rest w rw0 hlw
        rw [hlw2] at hw'
        simp [hstw2, hstw] at hw'

/-- Witness for C3: in `exSysA`, waiting on the live record 1 registers the
caller 0 and suspends it; in `exSysE`, the one step that wakes the waiting
record 0 is the death of record 2, whose waiter it is. -/
theorem c3_wait_blocks_until_dead_witness :
    (co_wait_step exSysA 1 =
      schedToStep (co_schedule (co_wait_register exSysA 1)) [Ev.waitOn 0 1] ∧
     lookupRec (co_wait_register exSysA 1).recs 1 =
       some { recEx CoStatus.running with waiter := some 0 } ∧
     lookupRec (co_wait_register exSysA 1).recs 0 =
       some { mainRecEx CoStatus.waiting [] with status := CoStatus.waiting, rem := [Op.reclaim 1] }) ∧
    (∃ r, lookupRec exSysE.recs exSysE.current = some r ∧ r.rem = [] ∧
      r.main = false ∧ r.waiter = some 0 ∧
      (0 ≠ exSysE.current → statusOf exSysEnext exSysE.current = some CoStatus.dead)) :=
  ⟨c3_wait_blocks_until_dead.1 exSysA 1 (recEx CoStatus.running)
     (mainRecEx CoStatus.waiting []) rfl (by decide) rfl (by decide),
   c3_wait_blocks_until_dead.2 exSysE exSysEnext [Ev.died 2, Ev.resume 0] 0
     rfl rfl rfl⟩

/-- C5: when a coroutine's entry function returns (its program is exhausted
and it is not the primordial record), the step marks the record `DEAD`, marks
its registered waiter (if any) `RUNNING`, and invokes the scheduling
algorithm recursively to hand off control.  The second conjunct shows a
record whose status is `DEAD` at scheduling time is never selected again: a
resume or first-run transfer only ever targets a record that was `RUNNING`
or `NEW` when the scan selected it. -/
theorem c5_entry_return_dead_path :
    (∀ (s : Sys) (r : Rec), lookupRec s.recs s.current = some r → r.rem = [] →
      r.main = false →
      stepSys s = schedToStep (co_schedule (deadState s r.waiter)) [Ev.died s.current] ∧
      (r.waiter = none → statusOf (deadState s r.waiter) s.current = some CoStatus.dead) ∧
      (∀ w rw2, r.waiter = some w → lookupRec s.recs w = some rw2 → w ≠ s.current →
        statusOf (deadState s r.waiter) w = some CoStatus.running ∧
        statusOf (deadState s r.waiter) s.current = some CoStatus.dead)) ∧
    (∀ (s s' : Sys) (evs : List Ev) (i : Nat), co_schedule s = SchedRes.switch s' evs →
      (Ev.resume i ∈ evs ∨ ∃ f a, Ev.invoke i f a ∈ evs) →
      statusOf s i ≠ some CoStatus.dead) := by
  constructor
  · intro s r hr hrem hmain
    refine ⟨?_, ?_, ?_⟩
    · rw [stepSys_some s r hr, hrem]
      simp [hmain]
    · intro hwo
      obtain ⟨rc2, hlc2, _, _, _, _, _, hstc2⟩ :=
        status_deadState s r.waiter s.current r hr
      rw [(statusOf_eq_some _ _ _).mpr ⟨rc2, hlc2, ?_⟩]
      rw [hstc2, hwo, if_neg (by simp), if_pos rfl]
    · intro w rw2 hwo hlw hnwc
      constructor
      · obtain ⟨rw3, hlw3, _, _, _, _, _, hstw3⟩ :=
          status_deadState s r.waiter w rw2 hlw
        rw [(statusOf_eq_some _ _ _).mpr ⟨rw3, hlw3, ?_⟩]
        rw [hstw3, hwo, if_pos rfl]
      · obtain ⟨rc2, hlc2, _, _, _, _, _, hstc2⟩ :=
          status_deadState s r.waiter s.current r hr
        rw [(statusOf_eq_some _ _ _).mpr ⟨rc2, hlc2, ?_⟩]
        rw [hstc2, hwo, if_neg (fun hcon => hnwc (Option.some.inj hcon)), if_pos rfl]
  · intro s s' evs i hsched hmem hcon
    obtain ⟨rdead, hld, hstd⟩ := (statusOf_eq_some s i _).mp hcon
    obtain ⟨sid, rsid, q', _, hlksid, _, _, _, _, hor⟩ := sched_switch_shape _ _ _ hsched
    rcases hor with ⟨hst, _, hevs⟩ | ⟨hst, _, hevs⟩
    · rcases hmem with hm | ⟨f, a, hm⟩
      · rw [hevs] at hm
        have hi : i = sid := by simpa using hm
        subst hi
        rw [hlksid] at hld
        cases hld
        rw [hstd] at hst
        cases hst
      · rw [hevs] at hm
        simp at hm
    · rcases hmem with hm | ⟨f, a, hm⟩
      · rw [hevs] at hm
        simp at hm
      · rw [hevs] at hm
        have hi : i = sid := by
          have := hm
          simp at this
          exact this.1
        subst hi
        rw [hlksid] at hld
        cases hld
        rw [hstd] at hst
        cases hst

/-- Witness for C5: the step of `exSysE` (record 2's entry function returns)
marks 2 dead, wakes its waiter 0, and reschedules; and no resume or invoke
of a dead record is possible in the scheduling switch taken from `exSysA`. -/
theorem c5_entry_return_dead_path_witness :
    (stepSys exSysE =
      schedToStep (co_schedule (deadState exSysE (some 0))) [Ev.died 2] ∧
     statusOf (deadState exSysE (some 0)) 0 = some CoStatus.running ∧
     statusOf (deadState exSysE (some 0)) 2 = some CoStatus.dead) ∧
    statusOf exSysA 1 ≠ some CoStatus.dead :=
  ⟨⟨(c5_entry_return_dead_path.1 exSysE ({ recEx CoStatus.running with waiter := some 0 })
       rfl rfl rfl).1,
    (c5_entry_return_dead_path.1 exSysE ({ recEx CoStatus.running with waiter := some 0 })
       rfl rfl rfl).2.2 0 (mainRecEx CoStatus.waiting []) rfl rfl (by decide)⟩,
   c5_entry_return_dead_path.2 exSysA
     { exSysA with queue := [1, 0], current := 1 } [Ev.resume 1] 1 rfl
     (Or.inl (by simp))⟩

/-- The C6 scenario: spawn A, B, C (ids 1, 2, 3) in that order, each with a
body that yields exactly once and returns; the primordial flow then yields
until the end. -/
def prog6 : List Op :=
  [Op.spawn 10 100 [Op.yield], Op.spawn 11 101 [Op.yield], Op.spawn 12 102 [Op.yield],
   Op.yield, Op.yield]

/-- C6: scheduling is strict round-robin over ready-queue insertion order.
`co_queue_insert` always appends at the tail of the insertion order, so newly
spawned coroutines run after all coroutines created earlier; in the A, B, C
scenario the non-primordial transfers happen in the order A, B, C (first
runs), A, B, C (resumes), each followed by its death.  Determinism for
identical creation and yield sequences is inherent: `run` is a function of
the initial program alone. -/
theorem c6_round_robin :
    (∀ (q : List Nat) (id : Nat), co_queue_insert q id = q ++ [id]) ∧
    (run 30 (initSys prog6)).1 = RunOut.halted Halt.mainReturned ∧
    (run 30 (initSys prog6)).2 =
      [Ev.spawned 1 (some 10) (some 100), Ev.spawned 2 (some 11) (some 101),
       Ev.spawned 3 (some 12) (some 102),
       Ev.invoke 1 (some 10) (some 100), Ev.invoke 2 (some 11) (some 101),
       Ev.invoke 3 (some 12) (some 102), Ev.resume 0,
       Ev.resume 1, Ev.died 1, Ev.resume 2, Ev.died 2, Ev.resume 3, Ev.died 3,
       Ev.resume 0] ∧
    ((run 30 (initSys prog6)).2.filter (fun e =>
        match e with
        | Ev.invoke i _ _ => i != 0
        | Ev.resume i => i != 0
        | _ => false)) =
      [Ev.invoke 1 (some 10) (some 100), Ev.invoke 2 (some 11) (some 101),
       Ev.invoke 3 (some 12) (some 102), Ev.resume 1, Ev.resume 2, Ev.resume 3] := by
  refine ⟨?_, rfl, rfl, by decide⟩
  intro q id
  cases q with
  | nil => rfl
  | cons a t => rfl

/-- The C7 scenario: the primordial flow 0 waits on X (id 1, still live),
then P (id 2) also waits on X — a second simultaneous waiter. -/
def prog7 : List Op :=
  [Op.spawn 5 50 [Op.yield], Op.spawn 6 60 [Op.wait 1], Op.wait 1]

/-- Counterexample to C7 (claim: a second simultaneous waiter "is detected
by an assertion/check that aborts the program").  In this run the target 1
receives two waiter registrations (the two `waitOn _ 1` events, by caller 0
and then caller 2); no assertion fires — the run ends in the clean `exit(0)`
path — and the first waiter 0 is never resumed: its registration was
silently overwritten, leaving it `WAITING` forever. -/
theorem c7_counterexample :
    (run 10 (initSys prog7)).1 = RunOut.halted Halt.exitZero ∧
    (run 10 (initSys prog7)).2 =
      [Ev.spawned 1 (some 5) (some 50), Ev.spawned 2 (some 6) (some 60),
       Ev.waitOn 0 1, Ev.invoke 1 (some 5) (some 50), Ev.invoke 2 (some 6) (some 60),
       Ev.waitOn 2 1, Ev.resume 1, Ev.died 1, Ev.resume 2, Ev.died 2] ∧
    Ev.resume 0 ∉ (run 10 (initSys prog7)).2 :=
  ⟨rfl, rfl, by decide⟩

/-- Record 1 already has a registered waiter (2) when the current coroutine
0 calls `co_wait` on it. -/
def exSysG : Sys :=
  { recs := [(0, mainRecEx CoStatus.running []),
             (1, { recEx CoStatus.running with waiter := some 2 }),
             (2, recEx CoStatus.waiting)],
    queue := [0, 1, 2], current := 0, nextId := 3 }

/-- C7 as amended: calling `co_wait` on a target that already has a
registered waiter is not detected — there is no assertion or check;
`co_wait` unconditionally overwrites the target's waiter field with the new
caller and proceeds with the normal suspend path, so the previously
registered waiter is silently dropped. -/
theorem c7_amended_waiter_overwritten :
    ∀ (s : Sys) (h : Nat) (hr : Rec) (w : Nat), lookupRec s.recs h = some hr →
      hr.status ≠ CoStatus.dead → hr.waiter = some w →
      co_wait_step s h =
        schedToStep (co_schedule (co_wait_register s h)) [Ev.waitOn s.current h] ∧
      ∃ hr2, lookupRec (co_wait_register s h).recs h = some hr2 ∧
        hr2.waiter = some s.current := by
  intro s h hr w hl hnd _
  refine ⟨by rw [co_wait_step_some s h hr hl, if_neg hnd], ?_⟩
  obtain ⟨hr2, hl2, _, _, _, _, hw2⟩ := status_register s h h hr hl
  refine ⟨hr2, hl2, ?_⟩
  rw [hw2, if_pos rfl]

/-- Witness for the amended C7: in `exSysG` the wait by 0 on record 1
overwrites the previously registered waiter 2 with 0. -/
theorem c7_amended_waiter_overwritten_witness :
    co_wait_step exSysG 1 =
      schedToStep (co_schedule (co_wait_register exSysG 1)) [Ev.waitOn 0 1] ∧
    ∃ hr2, lookupRec (co_wait_register exSysG 1).recs 1 = some hr2 ∧
      hr2.waiter = some 0 :=
  c7_amended_waiter_overwritten exSysG 1
    ({ recEx CoStatus.running with waiter := some 2 }) 2 rfl (by decide) rfl

/-- Counterexample to C8 (claim: with zero spawned coroutines, the
primordial flow's `yield()` terminates the process cleanly because "no other
eligible coroutine exists").  The primordial record itself has status
`CO_STATUS_RUNNING`, which the scan treats as eligible after wrapping around
to the head, so `co_yield` re-selects it, longjmps back and returns: the
step produces a resume of 0 (not the `exit(0)` halt), and the run ends only
when `main` itself returns. -/
theorem c8_counterexample :
    stepSys (initSys [Op.yield]) =
      StepAns.next { recs := [(0, { func := none, arg := none, status := CoStatus.running, waiter := none, main := true, rem := [] })], queue := [0], current := 0, nextId := 1 } [Ev.resume 0] ∧
    (run 2 (initSys [Op.yield])).1 = RunOut.halted Halt.mainReturned ∧
    (run 2 (initSys [Op.yield])).2 = [Ev.resume 0] :=
  ⟨rfl, rfl, rfl⟩

/-- C8 as amended: if zero coroutines beyond the primordial one have been
spawned and the primordial flow calls `yield()`, the scan wraps around to
the primordial's own node, which is `CO_STATUS_RUNNING` and hence eligible,
re-selects it, and `yield()` returns to the caller; the process does not
terminate at that yield. -/
theorem c8_amended_self_resume :
    ∀ rest, stepSys (initSys (Op.yield :: rest)) =
      StepAns.next { recs := [(0, { func := none, arg := none, status := CoStatus.running, waiter := none, main := true, rem := rest })], queue := [0], current := 0, nextId := 1 } [Ev.resume 0] := by
  intro rest
  rfl

/- ### Event-log counting lemmas -/

theorem invCount_append (L M : List Ev) (i : Nat) :
    invCount (L ++ M) i = invCount L i + invCount M i := by
  unfold invCount
  exact List.countP_append _ _ _

theorem invCount_one (e : Ev) (i : Nat) :
    invCount [e] i = (if isInvokeOf i e then 1 else 0) := by
  unfold invCount
  rw [List.countP_cons, List.countP_nil]
  simp

theorem mem_invoke_pos (L : List Ev) (i : Nat) (f a : Option Nat)
    (hm : Ev.invoke i f a ∈ L) : 1 ≤ invCount L i := by
  unfold invCount
  exact List.countP_pos_iff.mpr ⟨_, hm, by simp [isInvokeOf]⟩

theorem invCount_zero_not_mem (L : List Ev) (i : Nat) (f a : Option Nat)
    (hz : invCount L i = 0) : Ev.invoke i f a ∉ L := by
  intro hm
  have := mem_invoke_pos L i f a hm
  exact absurd (this.trans_eq hz) (by simp)

theorem spawned_mem_pos (L : List Ev) (i : Nat) (f a : Option Nat)
    (hm : Ev.spawned i f a ∈ L) : 1 ≤ spawnCount L i := by
  unfold spawnCount
  exact List.countP_pos_iff.mpr ⟨_, hm, by simp [isSpawnOf]⟩

/- ### The global invariant relating states to their event logs -/

/-- Invariant carried by every reachable (state, log) pair of a run.  It
records: fresh ids have no record and no events; the primordial record is
exactly id 0, has a `NULL` entry pointer, and is never `NEW`; a live
record's invocation count is 0 while it is `NEW` (or primordial) and exactly
1 afterwards, its spawn/invoke events carry exactly its stored func/arg, and
a non-primordial record has its spawn event in the log; freed ids keep at
most one invocation, paired and consistent events; id 0 is never invoked; no
spawn event carries a `NULL` entry pointer; the current record is never
`NEW`; and a registered waiter is an allocated id whose record is never
`NEW`. -/
structure SysInv (s : Sys) (L : List Ev) : Prop where
  fresh : ∀ i, s.nextId ≤ i → lookupRec s.recs i = none ∧ invCount L i = 0 ∧
    ∀ f a, Ev.spawned i f a ∉ L
  one_le : 1 ≤ s.nextId
  mainP : ∀ i r, lookupRec s.recs i = some r →
    (r.main = true ↔ i = 0) ∧ (r.main = true → r.status ≠ CoStatus.new) ∧
    (r.main = true ↔ r.func = none)
  recP : ∀ i r, lookupRec s.recs i = some r →
    invCount L i = (if r.main = true ∨ r.status = CoStatus.new then 0 else 1) ∧
    (∀ f a, Ev.spawned i f a ∈ L → f = r.func ∧ a = r.arg) ∧
    (∀ f a, Ev.invoke i f a ∈ L → f = r.func ∧ a = r.arg) ∧
    (r.main = false → Ev.spawned i r.func r.arg ∈ L)
  gone : ∀ i, lookupRec s.recs i = none → invCount L i ≤ 1 ∧
    (∀ f a, Ev.invoke i f a ∈ L → Ev.spawned i f a ∈ L) ∧
    (∀ f a f2 a2, Ev.spawned i f a ∈ L → Ev.spawned i f2 a2 ∈ L → f = f2 ∧ a = a2)
  zeroP : invCount L 0 = 0
  noNullSp : ∀ i a, Ev.spawned i none a ∉ L
  curNew : ∀ r, lookupRec s.recs s.current = some r → r.status ≠ CoStatus.new
  wtrP : ∀ i r w, lookupRec s.recs i = some r → r.waiter = some w →
    w < s.nextId ∧ (∀ wr, lookupRec s.recs w = some wr → wr.status ≠ CoStatus.new)

/-- What C1 needs of a complete event log: every coroutine's entry function
runs at most once; every first-run transfer of id `i` with func/arg `(f, a)`
is matched by the spawn of `i` with exactly `(f, a)`; all spawn events of
one id agree on func/arg (spawns are unique per id); a `NULL` entry pointer
is never invoked; and the primordial record (id 0) is never invoked. -/
def LogOk (L : List Ev) : Prop :=
  (∀ i, invCount L i ≤ 1) ∧
  (∀ i f a, Ev.invoke i f a ∈ L → Ev.spawned i f a ∈ L) ∧
  (∀ i f a f2 a2, Ev.spawned i f a ∈ L → Ev.spawned i f2 a2 ∈ L → f = f2 ∧ a = a2) ∧
  (∀ i a, Ev.invoke i none a ∉ L) ∧
  invCount L 0 = 0

theorem sysInv_logOk (s : Sys) (L : List Ev) (hinv : SysInv s L) : LogOk L := by
  refine ⟨?_, ?_, ?_, ?_, hinv.zeroP⟩
  · intro i
    cases hl : lookupRec s.recs i with
    | none => exact (hinv.gone i hl).1
    | some r =>
      rw [(hinv.recP i r hl).1]
      split <;> simp
  · intro i f a hm
    cases hl : lookupRec s.recs i with
    | none => exact (hinv.gone i hl).2.1 f a hm
    | some r =>
      obtain ⟨hcount, _, hinvargs, hspw⟩ := hinv.recP i r hl
      obtain ⟨hf, ha⟩ := hinvargs f a hm
      have hpos := mem_invoke_pos L i f a hm
      have hnm : r.main = false ∧ r.status ≠ CoStatus.new := by
        by_cases hcond : r.main = true ∨ r.status = CoStatus.new
        · rw [if_pos hcond] at hcount
          rw [hcount] at hpos
          exact absurd hpos (by simp)
        · push_neg at hcond
          exact ⟨by simpa using hcond.1, hcond.2⟩
      subst hf
      subst ha
      exact hspw hnm.1
  · intro i f a f2 a2 hm1 hm2
    cases hl : lookupRec s.recs i with
    | none => exact (hinv.gone i hl).2.2 f a f2 a2 hm1 hm2
    | some r =>
      obtain ⟨_, hspargs, _, _⟩ := hinv.recP i r hl
      obtain ⟨h1, h2⟩ := hspargs f a hm1
      obtain ⟨h3, h4⟩ := hspargs f2 a2 hm2
      rw [h1, h2, h3, h4]
      exact ⟨rfl, rfl⟩
  · intro i a hm
    cases hl : lookupRec s.recs i with
    | none =>
      exact hinv.noNullSp i a ((hinv.gone i hl).2.1 none a hm)
    | some r =>
      obtain ⟨hcount, _, hinvargs, _⟩ := hinv.recP i r hl
      obtain ⟨hf, _⟩ := hinvargs none a hm
      have hmain : r.main = true := ((hinv.mainP i r hl).2.2).mpr hf.symm
      rw [if_pos (Or.inl hmain)] at hcount
      exact absurd (mem_invoke_pos L i none a hm) (by simp [hcount])

/-- Appending an event that is neither an invocation nor a spawn preserves
the invariant. -/
theorem sysInv_neutral (s : Sys) (L : List Ev) (e : Ev) (hinv : SysInv s L)
    (hni : ∀ i, isInvokeOf i e = false)
    (hns : ∀ i f a, Ev.spawned i f a ≠ e) :
    SysInv s (L ++ [e]) := by
  have hcount : ∀ i, invCount (L ++ [e]) i = invCount L i := by
    intro i
    rw [invCount_append, invCount_one, hni i]
    simp
  have hspmem : ∀ i f a, (Ev.spawned i f a ∈ L ++ [e]) ↔ Ev.spawned i f a ∈ L := by
    intro i f a
    constructor
    · intro hm
      rcases List.mem_append.mp hm with h1 | h1
      · exact h1
      · exact absurd (List.mem_singleton.mp h1) (hns i f a)
    · intro hm
      exact List.mem_append.mpr (Or.inl hm)
  have hinvmem : ∀ i f a, (Ev.invoke i f a ∈ L ++ [e]) ↔ Ev.invoke i f a ∈ L := by
    intro i f a
    constructor
    · intro hm
      rcases List.mem_append.mp hm with h1 | h1
      · exact h1
      · exfalso
        have heq := List.mem_singleton.mp h1
        have := hni i
        rw [← heq] at this
        simp [isInvokeOf] at this
    · intro hm
      exact List.mem_append.mpr (Or.inl hm)
  refine ⟨?_, hinv.one_le, hinv.mainP, ?_, ?_, ?_, ?_, hinv.curNew, hinv.wtrP⟩
  · intro i hi
    obtain ⟨h1, h2, h3⟩ := hinv.fresh i hi
    exact ⟨h1, by rw [hcount]; exact h2, fun f a hm => h3 f a ((hspmem i f a).mp hm)⟩
  · intro i r hl
    obtain ⟨h1, h2, h3, h4⟩ := hinv.recP i r hl
    exact ⟨by rw [hcount]; exact h1,
           fun f a hm => h2 f a ((hspmem i f a).mp hm),
           fun f a hm => h3 f a ((hinvmem i f a).mp hm),
           fun hm => (hspmem i r.func r.arg).mpr (h4 hm)⟩
  · intro i hl
    obtain ⟨h1, h2, h3⟩ := hinv.gone i hl
    exact ⟨by rw [hcount]; exact h1,
           fun f a hm => (hspmem i f a).mpr (h2 f a ((hinvmem i f a).mp hm)),
           fun f a f2 a2 hm1 hm2 =>
             h3 f a f2 a2 ((hspmem _ _ _).mp hm1) ((hspmem _ _ _).mp hm2)⟩
  · rw [hcount]
    exact hinv.zeroP
  · intro i a hm
    exact hinv.noNullSp i a ((hspmem i none a).mp hm)

/-- Consuming the current record's next operation (rewriting its remaining
program) preserves the invariant: no status, waiter, func or arg changes. -/
theorem inv_setRem (s : Sys) (L : List Ev) (rest : List Op) (hinv : SysInv s L) :
    SysInv (setRem s rest) L := by
  have hnone : ∀ i, lookupRec (setRem s rest).recs i = none ↔
      lookupRec s.recs i = none := setRem_recs_none s rest
  have hsome : ∀ i r2, lookupRec (setRem s rest).recs i = some r2 →
      ∃ r, lookupRec s.recs i = some r ∧ r2.func = r.func ∧ r2.arg = r.arg ∧
        r2.main = r.main ∧ r2.status = r.status ∧ r2.waiter = r.waiter := by
    intro i r2 hl2
    cases hl : lookupRec s.recs i with
    | none =>
      have := (hnone i).mpr hl
      rw [this] at hl2
      cases hl2
    | some r =>
      obtain ⟨r2', hl2', hfu, ha, hm, hst, hw, _⟩ := status_setRem s rest i r hl
      rw [hl2'] at hl2
      cases hl2
      exact ⟨r, rfl, hfu, ha, hm, hst, hw⟩
  refine ⟨?_, hinv.one_le, ?_, ?_, ?_, hinv.zeroP, hinv.noNullSp, ?_, ?_⟩
  · intro i hi
    obtain ⟨h1, h2, h3⟩ := hinv.fresh i hi
    exact ⟨(hnone i).mpr h1, h2, h3⟩
  · intro i r2 hl2
    obtain ⟨r, hl, hfu, ha, hm, hst, hw⟩ := hsome i r2 hl2
    obtain ⟨m1, m2, m3⟩ := hinv.mainP i r hl
    exact ⟨by rw [hm]; exact m1, by rw [hm, hst]; exact m2, by rw [hm, hfu]; exact m3⟩
  · intro i r2 hl2
    obtain ⟨r, hl, hfu, ha, hm, hst, hw⟩ := hsome i r2 hl2
    obtain ⟨h1, h2, h3, h4⟩ := hinv.recP i r hl
    refine ⟨by rw [hm, hst]; exact h1,
            fun f a hmm => by rw [hfu, ha]; exact h2 f a hmm,
            fun f a hmm => by rw [hfu, ha]; exact h3 f a hmm,
            fun hmm => ?_⟩
    rw [hfu, ha]
    apply h4
    rw [← hm]
    exact hmm
  · intro i hl2
    exact hinv.gone i ((hnone i).mp hl2)
  · intro r2 hl2
    obtain ⟨r, hl, _, _, _, hst, _⟩ := hsome s.current r2 hl2
    rw [hst]
    exact hinv.curNew r hl
  · intro i r2 w hl2 hw2
    obtain ⟨r, hl, _, _, _, _, hw⟩ := hsome i r2 hl2
    rw [hw] at hw2
    obtain ⟨g1, g2⟩ := hinv.wtrP i r w hl hw2
    refine ⟨g1, ?_⟩
    intro wr2 hlw2
    obtain ⟨wr, hlw, _, _, _, hstw, _⟩ := hsome w wr2 hlw2
    rw [hstw]
    exact g2 wr hlw

theorem deadState_current (s : Sys) (wo : Option Nat) :
    (deadState s wo).current = s.current := by
  cases wo <;> rfl

theorem deadState_nextId (s : Sys) (wo : Option Nat) :
    (deadState s wo).nextId = s.nextId := by
  cases wo <;> rfl

/-- Core transfer: if a state change preserves the heap domain, `func`,
`arg`, `main` and the new-ness of every record's status, then all invariant
fields except the current-record and waiter conditions carry over. -/
theorem sysInv_core (s s2 : Sys) (L : List Ev) (hinv : SysInv s L)
    (hnext : s2.nextId = s.nextId)
    (hnone : ∀ i, lookupRec s2.recs i = none ↔ lookupRec s.recs i = none)
    (hsome : ∀ i r2, lookupRec s2.recs i = some r2 →
      ∃ r, lookupRec s.recs i = some r ∧ r2.func = r.func ∧ r2.arg = r.arg ∧
        r2.main = r.main ∧ (r2.status = CoStatus.new ↔ r.status = CoStatus.new))
    (hcurNew : ∀ r2, lookupRec s2.recs s2.current = some r2 →
      r2.status ≠ CoStatus.new)
    (hwtr : ∀ i r2 w, lookupRec s2.recs i = some r2 → r2.waiter = some w →
      w < s2.nextId ∧
      ∀ wr2, lookupRec s2.recs w = some wr2 → wr2.status ≠ CoStatus.new) :
    SysInv s2 L := by
  refine ⟨?_, by rw [hnext]; exact hinv.one_le, ?_, ?_, ?_, hinv.zeroP,
    hinv.noNullSp, hcurNew, hwtr⟩
  · intro i hi
    rw [hnext] at hi
    obtain ⟨h1, h2, h3⟩ := hinv.fresh i hi
    exact ⟨(hnone i).mpr h1, h2, h3⟩
  · intro i r2 hl2
    obtain ⟨r, hl, hfu, ha, hm, hstiff⟩ := hsome i r2 hl2
    obtain ⟨m1, m2, m3⟩ := hinv.mainP i r hl
    refine ⟨by rw [hm]; exact m1, ?_, by rw [hm, hfu]; exact m3⟩
    intro hmn hcon
    exact m2 (by rw [← hm]; exact hmn) (hstiff.mp hcon)
  · intro i r2 hl2
    obtain ⟨r, hl, hfu, ha, hm, hstiff⟩ := hsome i r2 hl2
    obtain ⟨h1, h2, h3, h4⟩ := hinv.recP i r hl
    refine ⟨?_, fun f a hmm => by rw [hfu, ha]; exact h2 f a hmm,
            fun f a hmm => by rw [hfu, ha]; exact h3 f a hmm, fun hmm => ?_⟩
    · rw [h1, hm]
      exact (if_congr (or_congr Iff.rfl hstiff) rfl rfl).symm
    · rw [hfu, ha]
      exact h4 (by rw [← hm]; exact hmm)
  · intro i hl2
    exact hinv.gone i ((hnone i).mp hl2)

/-- The entry-return transition (mark current dead, wake its waiter)
preserves the invariant. -/
theorem inv_deadState (s : Sys) (L : List Ev) (r : Rec)
    (hinv : SysInv s L) (hr : lookupRec s.recs s.current = some r) :
    SysInv (deadState s r.waiter) L := by
  have hcur0 : r.status ≠ CoStatus.new := hinv.curNew r hr
  have hsome : ∀ i r2, lookupRec (deadState s r.waiter).recs i = some r2 →
      ∃ r0, lookupRec s.recs i = some r0 ∧ r2.func = r0.func ∧ r2.arg = r0.arg ∧
        r2.main = r0.main ∧ r2.rem = r0.rem ∧ r2.waiter = r0.waiter ∧
        r2.status = (if r.waiter = some i then CoStatus.running
                     else if i = s.current then CoStatus.dead else r0.status) := by
    intro i r2 hl2
    cases hl : lookupRec s.recs i with
    | none =>
      have := (deadState_recs_none s r.waiter i).mpr hl
      rw [this] at hl2
      cases hl2
    | some r0 =>
      obtain ⟨r2', hl2', p1, p2, p3, p4, p5, p6⟩ := status_deadState s r.waiter i r0 hl
      rw [hl2'] at hl2
      cases hl2
      exact ⟨r0, rfl, p1, p2, p3, p4, p5, p6⟩
  have hnewiff : ∀ i r2, lookupRec (deadState s r.waiter).recs i = some r2 →
      ∃ r0, lookupRec s.recs i = some r0 ∧ r2.func = r0.func ∧ r2.arg = r0.arg ∧
        r2.main = r0.main ∧ (r2.status = CoStatus.new ↔ r0.status = CoStatus.new) := by
    intro i r2 hl2
    obtain ⟨r0, hl, p1, p2, p3, _, _, p6⟩ := hsome i r2 hl2
    refine ⟨r0, hl, p1, p2, p3, ?_⟩
    rw [p6]
    by_cases hw : r.waiter = some i
    · rw [if_pos hw]
      have hr0new : r0.status ≠ CoStatus.new := by
        obtain ⟨_, g2⟩ := hinv.wtrP s.current r i hr hw
        exact g2 r0 hl
      constructor
      · intro hcon; cases hcon
      · intro hcon; exact absurd hcon hr0new
    · rw [if_neg hw]
      by_cases hc : i = s.current
      · rw [if_pos hc]
        have hr0new : r0.status ≠ CoStatus.new := by
          rw [hc] at hl
          rw [hl] at hr
          cases hr
          exact hcur0
        constructor
        · intro hcon; cases hcon
        · intro hcon; exact absurd hcon hr0new
      · rw [if_neg hc]
  apply sysInv_core s _ L hinv (deadState_nextId s r.waiter)
    (deadState_recs_none s r.waiter) hnewiff
  · intro r2 hl2
    rw [deadState_current] at hl2
    obtain ⟨r0, hl, _, _, _, _, _, p6⟩ := hsome s.current r2 hl2
    rw [p6]
    by_cases hw : r.waiter = some s.current
    · rw [if_pos hw]
      intro hcon; cases hcon
    · rw [if_neg hw, if_pos rfl]
      intro hcon; cases hcon
  · intro i r2 w hl2 hw2
    obtain ⟨r0, hl, _, _, _, _, p5, _⟩ := hsome i r2 hl2
    rw [p5] at hw2
    obtain ⟨g1, g2⟩ := hinv.wtrP i r0 w hl hw2
    refine ⟨by rw [deadState_nextId]; exact g1, ?_⟩
    intro wr2 hlw2
    obtain ⟨wr0, hlw, _, _, _, _, _, q6⟩ := hsome w wr2 hlw2
    rw [q6]
    by_cases hww : r.waiter = some w
    · rw [if_pos hww]
      intro hcon; cases hcon
    · rw [if_neg hww]
      by_cases hwc : w = s.current
      · rw [if_pos hwc]
        intro hcon; cases hcon
      · rw [if_neg hwc]
        exact g2 wr0 hlw

/-- The waiter-registration transition of `co_wait` (overwrite the target's
waiter with the caller, mark the caller waiting) preserves the invariant. -/
theorem inv_register (s : Sys) (L : List Ev) (h : Nat) (rc : Rec)
    (hinv : SysInv s L) (hc : lookupRec s.recs s.current = some rc) :
    SysInv (co_wait_register s h) L := by
  have hcurlt : s.current < s.nextId := by
    by_contra hcon
    push_neg at hcon
    have := (hinv.fresh s.current hcon).1
    rw [this] at hc
    cases hc
  have hsome : ∀ i r2, lookupRec (co_wait_register s h).recs i = some r2 →
      ∃ r0, lookupRec s.recs i = some r0 ∧ r2.func = r0.func ∧ r2.arg = r0.arg ∧
        r2.main = r0.main ∧
        r2.status = (if i = s.current then CoStatus.waiting else r0.status) ∧
        r2.waiter = (if i = h then some s.current else r0.waiter) := by
    intro i r2 hl2
    cases hl : lookupRec s.recs i with
    | none =>
      have := (register_recs_none s h i).mpr hl
      rw [this] at hl2
      cases hl2
    | some r0 =>
      obtain ⟨r2', hl2', p1, p2, p3, p4, p5⟩ := status_register s h i r0 hl
      rw [hl2'] at hl2
      cases hl2
      exact ⟨r0, rfl, p1, p2, p3, p4, p5⟩
  have hnewiff : ∀ i r2, lookupRec (co_wait_register s h).recs i = some r2 →
      ∃ r0, lookupRec s.recs i = some r0 ∧ r2.func = r0.func ∧ r2.arg = r0.arg ∧
        r2.main = r0.main ∧ (r2.status = CoStatus.new ↔ r0.status = CoStatus.new) := by
    intro i r2 hl2
    obtain ⟨r0, hl, p1, p2, p3, p4, _⟩ := hsome i r2 hl2
    refine ⟨r0, hl, p1, p2, p3, ?_⟩
    rw [p4]
    by_cases hcc : i = s.current
    · rw [if_pos hcc]
      have hr0new : r0.status ≠ CoStatus.new := by
        rw [hcc] at hl
        exact hinv.curNew r0 hl
      constructor
      · intro hcon; cases hcon
      · intro hcon; exact absurd hcon hr0new
    · rw [if_neg hcc]
  apply sysInv_core s (co_wait_register s h) L hinv rfl (register_recs_none s h) hnewiff
  · intro r2 hl2
    obtain ⟨r0, hl, _, _, _, p4, _⟩ := hsome s.current r2 hl2
    rw [p4, if_pos rfl]
    intro hcon; cases hcon
  · intro i r2 w hl2 hw2
    obtain ⟨r0, hl, _, _, _, _, p5⟩ := hsome i r2 hl2
    rw [p5] at hw2
    by_cases hih : i = h
    · rw [if_pos hih] at hw2
      have hwc : w = s.current := (Option.some.inj hw2).symm
      subst hwc
      refine ⟨hcurlt, ?_⟩
      intro wr2 hlw2
      obtain ⟨wr0, hlw, _, _, _, q4, _⟩ := hsome s.current wr2 hlw2
      rw [q4, if_pos rfl]
      intro hcon; cases hcon
    · rw [if_neg hih] at hw2
      obtain ⟨g1, g2⟩ := hinv.wtrP i r0 w hl hw2
      refine ⟨g1, ?_⟩
      intro wr2 hlw2
      obtain ⟨wr0, hlw, _, _, _, q4, _⟩ := hsome w wr2 hlw2
      rw [q4]
      by_cases hwc : w = s.current
      · rw [if_pos hwc]
        intro hcon; cases hcon
      · rw [if_neg hwc]
        exact g2 wr0 hlw

/-- Reclamation (freeing a record) preserves the invariant: the freed id
moves into the freed-id clauses, everything else is untouched. -/
theorem inv_reclaim (s : Sys) (L : List Ev) (h : Nat) (s' : Sys)
    (hinv : SysInv s L) (hok : co_reclaim s h = Except.ok s') :
    SysInv s' L := by
  obtain ⟨hrecs, hcur, hnext, _, _⟩ := co_reclaim_ok_shape s h s' hok
  have hlk : ∀ i, i ≠ h → lookupRec s'.recs i = lookupRec s.recs i := by
    intro i hih
    rw [hrecs]
    exact lookupRec_erase_ne s.recs h i (fun hcon => hih hcon.symm)
  have hgone_h : invCount L h ≤ 1 ∧
      (∀ f a, Ev.invoke h f a ∈ L → Ev.spawned h f a ∈ L) ∧
      (∀ f a f2 a2, Ev.spawned h f a ∈ L → Ev.spawned h f2 a2 ∈ L →
        f = f2 ∧ a = a2) := by
    cases hl : lookupRec s.recs h with
    | none => exact hinv.gone h hl
    | some hr =>
      obtain ⟨h1, h2, h3, h4⟩ := hinv.recP h hr hl
      refine ⟨by rw [h1]; split <;> simp, ?_, ?_⟩
      · intro f a hm
        obtain ⟨hf, ha⟩ := h3 f a hm
        have hpos := mem_invoke_pos L h f a hm
        have hnm : hr.main = false := by
          by_cases hcond : hr.main = true ∨ hr.status = CoStatus.new
          · rw [if_pos hcond] at h1
            rw [h1] at hpos
            exact absurd hpos (by simp)
          · push_neg at hcond
            simpa using hcond.1
        subst hf
        subst ha
        exact h4 hnm
      · intro f a f2 a2 hm1 hm2
        obtain ⟨q1, q2⟩ := h2 f a hm1
        obtain ⟨q3, q4⟩ := h2 f2 a2 hm2
        rw [q1, q2, q3, q4]
        exact ⟨rfl, rfl⟩
  refine ⟨?_, by rw [hnext]; exact hinv.one_le, ?_, ?_, ?_, hinv.zeroP,
    hinv.noNullSp, ?_, ?_⟩
  · intro i hi
    rw [hnext] at hi
    obtain ⟨h1, h2, h3⟩ := hinv.fresh i hi
    refine ⟨?_, h2, h3⟩
    rw [hrecs]
    exact (lookupRec_erase_none s.recs h i).mpr (Or.inr h1)
  · intro i r hl2
    by_cases hih : i = h
    · rw [hih] at hl2
      rw [hrecs, lookupRec_erase_self] at hl2
      cases hl2
    · rw [hlk i hih] at hl2
      exact hinv.mainP i r hl2
  · intro i r hl2
    by_cases hih : i = h
    · rw [hih] at hl2
      rw [hrecs, lookupRec_erase_self] at hl2
      cases hl2
    · rw [hlk i hih] at hl2
      exact hinv.recP i r hl2
  · intro i hl2
    by_cases hih : i = h
    · rw [hih]
      exact hgone_h
    · rw [hlk i hih] at hl2
      exact hinv.gone i hl2
  · intro r hl2
    rw [hcur] at hl2
    by_cases hih : s.current = h
    · rw [hih] at hl2
      rw [hrecs, lookupRec_erase_self] at hl2
      cases hl2
    · rw [hlk s.current hih] at hl2
      exact hinv.curNew r hl2
  · intro i r w hl2 hw2
    by_cases hih : i = h
    · rw [hih] at hl2
      rw [hrecs, lookupRec_erase_self] at hl2
      cases hl2
    · rw [hlk i hih] at hl2
      obtain ⟨g1, g2⟩ := hinv.wtrP i r w hl2 hw2
      refine ⟨by rw [hnext]; exact g1, ?_⟩
      intro wr hlw2
      by_cases hwh : w = h
      · rw [hwh] at hlw2
        rw [hrecs, lookupRec_erase_self] at hlw2
        cases hlw2
      · rw [hlk w hwh] at hlw2
        exact g2 wr hlw2

/-- Spawning a fresh record (status `NEW`, no waiter, `main := false`)
together with its spawn event preserves the invariant. -/
theorem inv_start (s : Sys) (L : List Ev) (f a : Nat) (body : List Op) (rc : Rec)
    (hinv : SysInv s L) (hc : lookupRec s.recs s.current = some rc) :
    SysInv (co_start s (some f) (some a) body false).1
      (L ++ [Ev.spawned s.nextId (some f) (some a)]) := by
  have hcurlt : s.current < s.nextId := by
    by_contra hcon
    push_neg at hcon
    have := (hinv.fresh s.current hcon).1
    rw [this] at hc
    cases hc
  have hlk : ∀ i, lookupRec (co_start s (some f) (some a) body false).1.recs i =
      (if s.nextId = i
       then some { func := some f, arg := some a, status := CoStatus.new,
                   waiter := none, main := false, rem := body }
       else lookupRec s.recs i) := by
    intro i
    rfl
  have hnxt : (co_start s (some f) (some a) body false).1.nextId = s.nextId + 1 := rfl
  have hcount : ∀ i, invCount (L ++ [Ev.spawned s.nextId (some f) (some a)]) i =
      invCount L i := by
    intro i
    rw [invCount_append, invCount_one]
    simp [isInvokeOf]
  have hspmem : ∀ i f2 a2,
      (Ev.spawned i f2 a2 ∈ L ++ [Ev.spawned s.nextId (some f) (some a)]) ↔
      (Ev.spawned i f2 a2 ∈ L ∨ (i = s.nextId ∧ f2 = some f ∧ a2 = some a)) := by
    intro i f2 a2
    simp [List.mem_append]
  have hinvmem : ∀ i f2 a2,
      (Ev.invoke i f2 a2 ∈ L ++ [Ev.spawned s.nextId (some f) (some a)]) ↔
      Ev.invoke i f2 a2 ∈ L := by
    intro i f2 a2
    simp [List.mem_append]
  refine ⟨?_, ?_, ?_, ?_, ?_, ?_, ?_, ?_, ?_⟩
  · intro i hi
    rw [hnxt] at hi
    have hi2 : s.nextId ≤ i := Nat.le_of_succ_le hi
    have hne : s.nextId ≠ i := Nat.ne_of_lt (Nat.lt_of_succ_le hi)
    obtain ⟨h1, h2, h3⟩ := hinv.fresh i hi2
    refine ⟨by rw [hlk, if_neg hne]; exact h1, by rw [hcount]; exact h2, ?_⟩
    intro f2 a2 hm
    rcases (hspmem i f2 a2).mp hm with hm1 | ⟨hm1, _, _⟩
    · exact h3 f2 a2 hm1
    · exact hne (hm1.symm)
  · rw [hnxt]
    exact Nat.le_succ_of_le hinv.one_le
  · intro i r hl2
    rw [hlk] at hl2
    by_cases hni : s.nextId = i
    · rw [if_pos hni] at hl2
      cases hl2
      have hne0 : i ≠ 0 := by
        rw [← hni]
        exact Nat.pos_iff_ne_zero.mp hinv.one_le
      refine ⟨?_, ?_, ?_⟩
      · simp [hne0]
      · intro hcon
        cases hcon
      · simp
    · rw [if_neg hni] at hl2
      exact hinv.mainP i r hl2
  · intro i r hl2
    rw [hlk] at hl2
    by_cases hni : s.nextId = i
    · rw [if_pos hni] at hl2
      cases hl2
      obtain ⟨g1, g2, g3⟩ := hinv.fresh i (Nat.le_of_eq hni)
      refine ⟨?_, ?_, ?_, ?_⟩
      · rw [hcount, g2]
        simp
      · intro f2 a2 hm
        rcases (hspmem i f2 a2).mp hm with hm1 | ⟨_, hm2, hm3⟩
        · exact absurd hm1 (g3 f2 a2)
        · exact ⟨hm2, hm3⟩
      · intro f2 a2 hm
        have := invCount_zero_not_mem L i f2 a2 g2
        exact absurd ((hinvmem i f2 a2).mp hm) this
      · intro _
        exact (hspmem i (some f) (some a)).mpr (Or.inr ⟨hni.symm, rfl, rfl⟩)
    · rw [if_neg hni] at hl2
      obtain ⟨h1, h2, h3, h4⟩ := hinv.recP i r hl2
      refine ⟨by rw [hcount]; exact h1, ?_, ?_, ?_⟩
      · intro f2 a2 hm
        rcases (hspmem i f2 a2).mp hm with hm1 | ⟨hm1, _, _⟩
        · exact h2 f2 a2 hm1
        · exact absurd hm1.symm hni
      · intro f2 a2 hm
        exact h3 f2 a2 ((hinvmem i f2 a2).mp hm)
      · intro hm
        exact (hspmem i r.func r.arg).mpr (Or.inl (h4 hm))
  · intro i hl2
    rw [hlk] at hl2
    by_cases hni : s.nextId = i
    · rw [if_pos hni] at hl2
      cases hl2
    · rw [if_neg hni] at hl2
      obtain ⟨h1, h2, h3⟩ := hinv.gone i hl2
      refine ⟨by rw [hcount]; exact h1, ?_, ?_⟩
      · intro f2 a2 hm
        exact (hspmem i f2 a2).mpr (Or.inl (h2 f2 a2 ((hinvmem i f2 a2).mp hm)))
      · intro f2 a2 f3 a3 hm1 hm2
        rcases (hspmem i f2 a2).mp hm1 with hn1 | ⟨hn1, _, _⟩
        · rcases (hspmem i f3 a3).mp hm2 with hn2 | ⟨hn2, _, _⟩
          · exact h3 f2 a2 f3 a3 hn1 hn2
          · exact absurd hn2.symm hni
        · exact absurd hn1.symm hni
  · rw [hcount]
    exact hinv.zeroP
  · intro i a2 hm
    rcases (hspmem i none a2).mp hm with hm1 | ⟨_, hm2, _⟩
    · exact hinv.noNullSp i a2 hm1
    · cases hm2
  · intro r hl2
    rw [hlk] at hl2
    have hne : s.nextId ≠ (co_start s (some f) (some a) body false).1.current := by
      have : (co_start s (some f) (some a) body false).1.current = s.current := rfl
      rw [this]
      exact Nat.ne_of_gt hcurlt
    rw [if_neg hne] at hl2
    exact hinv.curNew r hl2
  · intro i r w hl2 hw2
    rw [hlk] at hl2
    by_cases hni : s.nextId = i
    · rw [if_pos hni] at hl2
      cases hl2
      cases hw2
    · rw [if_neg hni] at hl2
      obtain ⟨g1, g2⟩ := hinv.wtrP i r w hl2 hw2
      refine ⟨by rw [hnxt]; exact Nat.lt_succ_of_lt g1, ?_⟩
      intro wr hlw2
      rw [hlk] at hlw2
      have hwne : s.nextId ≠ w := Nat.ne_of_gt g1
      rw [if_neg hwne] at hlw2
      exact g2 wr hlw2

/-- A scheduling switch preserves the invariant, extending the log with the
transfer event (a resume, or a first invocation of the selected record). -/
theorem sched_inv (sb s' : Sys) (evs : List Ev) (L : List Ev)
    (hinv : SysInv sb L) (hsched : co_schedule sb = SchedRes.switch s' evs) :
    SysInv s' (L ++ evs) := by
  obtain ⟨sid, rsid, q', hscan, hlksid, helig, hcur, hqu, hnext, hor⟩ :=
    sched_switch_shape sb s' evs hsched
  rcases hor with ⟨hst, hrecs, hevs⟩ | ⟨hst, hrecs, hevs⟩
  · -- resume transfer: the event is neutral, only queue/current change
    subst hevs
    have base := sysInv_neutral sb L (Ev.resume sid) hinv (fun i => rfl)
      (fun i f a => by simp)
    refine ⟨?_, by rw [hnext]; exact base.one_le, ?_, ?_, ?_, base.zeroP,
      base.noNullSp, ?_, ?_⟩
    · intro i hi
      rw [hnext] at hi
      obtain ⟨h1, h2, h3⟩ := base.fresh i hi
      exact ⟨by rw [hrecs]; exact h1, h2, h3⟩
    · intro i r hl2
      rw [hrecs] at hl2
      exact base.mainP i r hl2
    · intro i r hl2
      rw [hrecs] at hl2
      exact base.recP i r hl2
    · intro i hl2
      rw [hrecs] at hl2
      exact base.gone i hl2
    · intro r hl2
      rw [hcur, hrecs, hlksid] at hl2
      cases hl2
      rw [hst]
      intro hcon
      cases hcon
    · intro i r w hl2 hw2
      rw [hrecs] at hl2
      obtain ⟨g1, g2⟩ := base.wtrP i r w hl2 hw2
      refine ⟨by rw [hnext]; exact g1, ?_⟩
      intro wr hlw2
      rw [hrecs] at hlw2
      exact g2 wr hlw2
  · -- first-run transfer of the NEW record sid
    subst hevs
    have hmainf : rsid.main = false := by
      by_cases hmm : rsid.main = true
      · exact absurd hst ((hinv.mainP sid rsid hlksid).2.1 hmm)
      · simpa using hmm
    have hsidlt : sid < sb.nextId := by
      by_contra hcon
      push_neg at hcon
      have := (hinv.fresh sid hcon).1
      rw [this] at hlksid
      cases hlksid
    have hsid0 : sid ≠ 0 := by
      intro hcon
      have hmm := ((hinv.mainP sid rsid hlksid).1).mpr hcon
      exact (hinv.mainP sid rsid hlksid).2.1 hmm hst
    have hcount : ∀ i, invCount (L ++ [Ev.invoke sid rsid.func rsid.arg]) i =
        invCount L i + (if sid = i then 1 else 0) := by
      intro i
      rw [invCount_append, invCount_one]
      by_cases hi : sid = i
      · simp [isInvokeOf, hi]
      · simp [isInvokeOf, hi]
    have hspmem : ∀ i f2 a2,
        (Ev.spawned i f2 a2 ∈ L ++ [Ev.invoke sid rsid.func rsid.arg]) ↔
        Ev.spawned i f2 a2 ∈ L := by
      intro i f2 a2
      simp [List.mem_append]
    have hinvmem : ∀ i f2 a2,
        (Ev.invoke i f2 a2 ∈ L ++ [Ev.invoke sid rsid.func rsid.arg]) ↔
        (Ev.invoke i f2 a2 ∈ L ∨ (i = sid ∧ f2 = rsid.func ∧ a2 = rsid.arg)) := by
      intro i f2 a2
      simp [List.mem_append]
    have hlk : ∀ i, lookupRec s'.recs i =
        (if sid = i
         then (lookupRec sb.recs i).map (fun rr => { rr with status := CoStatus.running })
         else lookupRec sb.recs i) := by
      intro i
      rw [hrecs]
      exact lookupRec_update sb.recs sid _ i
    have hcount0 : invCount L sid = 0 := by
      have := (hinv.recP sid rsid hlksid).1
      rw [if_pos (Or.inr hst)] at this
      exact this
    refine ⟨?_, by rw [hnext]; exact hinv.one_le, ?_, ?_, ?_, ?_, ?_, ?_, ?_⟩
    · intro i hi
      rw [hnext] at hi
      have hne : sid ≠ i := Nat.ne_of_lt (Nat.lt_of_lt_of_le hsidlt hi)
      obtain ⟨h1, h2, h3⟩ := hinv.fresh i hi
      refine ⟨by rw [hlk, if_neg hne]; exact h1, ?_, ?_⟩
      · rw [hcount, if_neg hne, h2]
      · intro f2 a2 hm
        exact h3 f2 a2 ((hspmem i f2 a2).mp hm)
    · intro i r hl2
      rw [hlk] at hl2
      by_cases hni : sid = i
      · rw [if_pos hni] at hl2
        rw [← hni] at hl2
        rw [hlksid] at hl2
        cases hl2
        obtain ⟨m1, _, m3⟩ := hinv.mainP sid rsid hlksid
        rw [← hni]
        refine ⟨m1, ?_, m3⟩
        intro _ hcon
        cases hcon
      · rw [if_neg hni] at hl2
        exact hinv.mainP i r hl2
    · intro i r hl2
      rw [hlk] at hl2
      by_cases hni : sid = i
      · rw [if_pos hni] at hl2
        rw [← hni] at hl2
        rw [hlksid] at hl2
        cases hl2
        obtain ⟨h1, h2, h3, h4⟩ := hinv.recP sid rsid hlksid
        rw [← hni]
        refine ⟨?_, ?_, ?_, ?_⟩
        · rw [hcount, if_pos rfl, hcount0]
          simp [hmainf]
        · intro f2 a2 hm
          exact h2 f2 a2 ((hspmem sid f2 a2).mp hm)
        · intro f2 a2 hm
          rcases (hinvmem sid f2 a2).mp hm with hm1 | ⟨_, hm2, hm3⟩
          · exact absurd hm1 (invCount_zero_not_mem L sid f2 a2 hcount0)
          · exact ⟨hm2, hm3⟩
        · intro _
          exact (hspmem sid rsid.func rsid.arg).mpr (h4 hmainf)
      · rw [if_neg hni] at hl2
        obtain ⟨h1, h2, h3, h4⟩ := hinv.recP i r hl2
        refine ⟨by rw [hcount, if_neg hni, h1]; simp, ?_, ?_, ?_⟩
        · intro f2 a2 hm
          exact h2 f2 a2 ((hspmem i f2 a2).mp hm)
        · intro f2 a2 hm
          rcases (hinvmem i f2 a2).mp hm with hm1 | ⟨hm1, _, _⟩
          · exact h3 f2 a2 hm1
          · exact absurd hm1.symm hni
        · intro hm
          exact (hspmem i r.func r.arg).mpr (h4 hm)
    · intro i hl2
      rw [hlk] at hl2
      by_cases hni : sid = i
      · rw [if_pos hni, ← hni, hlksid] at hl2
        cases hl2
      · rw [if_neg hni] at hl2
        obtain ⟨h1, h2, h3⟩ := hinv.gone i hl2
        refine ⟨by rw [hcount, if_neg hni]; simpa using h1, ?_, ?_⟩
        · intro f2 a2 hm
          rcases (hinvmem i f2 a2).mp hm with hm1 | ⟨hm1, _, _⟩
          · exact (hspmem i f2 a2).mpr (h2 f2 a2 hm1)
          · exact absurd hm1.symm hni
        · intro f2 a2 f3 a3 hm1 hm2
          exact h3 f2 a2 f3 a3 ((hspmem i f2 a2).mp hm1) ((hspmem i f3 a3).mp hm2)
    · rw [hcount, if_neg hsid0, hinv.zeroP]
    · intro i a2 hm
      exact hinv.noNullSp i a2 ((hspmem i none a2).mp hm)
    · intro r hl2
      rw [hcur, hlk, if_pos rfl, hlksid] at hl2
      cases hl2
      intro hcon
      cases hcon
    · intro i r w hl2 hw2
      rw [hlk] at hl2
      by_cases hni : sid = i
      · rw [if_pos hni, ← hni, hlksid] at hl2
        cases hl2
        have hw3 : rsid.waiter = some w := hw2
        obtain ⟨g1, g2⟩ := hinv.wtrP sid rsid w hlksid hw3
        refine ⟨by rw [hnext]; exact g1, ?_⟩
        intro wr hlw2
        rw [hlk] at hlw2
        by_cases hnw : sid = w
        · rw [if_pos hnw] at hlw2
          rw [← hnw, hlksid] at hlw2
          cases hlw2
          intro hcon
          cases hcon
        · rw [if_neg hnw] at hlw2
          exact g2 wr hlw2
      · rw [if_neg hni] at hl2
        obtain ⟨g1, g2⟩ := hinv.wtrP i r w hl2 hw2
        refine ⟨by rw [hnext]; exact g1, ?_⟩
        intro wr hlw2
        rw [hlk] at hlw2
        by_cases hnw : sid = w
        · rw [if_pos hnw] at hlw2
          rw [← hnw, hlksid] at hlw2
          cases hlw2
          intro hcon
          cases hcon
        · rw [if_neg hnw] at hlw2
          exact g2 wr hlw2

/-- One non-halting step preserves the invariant. -/
theorem stepInv_next (s s' : Sys) (evs : List Ev) (L : List Ev)
    (hinv : SysInv s L) (hstep : stepSys s = StepAns.next s' evs) :
    SysInv s' (L ++ evs) := by
  obtain ⟨r, hr, harms⟩ := step_next_shape s s' evs hstep
  rcases harms with ⟨hrem, hmain, evs2, hsched, hevs⟩ | ⟨rest, hrem, hsched⟩ |
    ⟨f, a, body, rest, hrem, hs', hevs⟩ | ⟨h, rest, hr2, hrem, hlk, hdead, hok, hevs⟩ |
    ⟨h, rest, hr2, evs2, hrem, hlk, hnd, hsched, hevs⟩ | ⟨h, rest, hrem, hok, hevs⟩
  · subst hevs
    have h1 := sysInv_neutral s L (Ev.died s.current) hinv (fun i => rfl)
      (fun i f a => by simp)
    have h2 := inv_deadState s (L ++ [Ev.died s.current]) r h1 hr
    have h3 := sched_inv _ s' evs2 _ h2 hsched
    simpa using h3
  · exact sched_inv _ s' evs _ (inv_setRem s L rest hinv) hsched
  · subst hs'
    subst hevs
    obtain ⟨rc2, hc2, _⟩ := status_setRem s rest s.current r hr
    exact inv_start (setRem s rest) L f a body rc2 (inv_setRem s L rest hinv) hc2
  · subst hevs
    have h1 := sysInv_neutral s L (Ev.waitOn s.current h) hinv (fun i => rfl)
      (fun i f a => by simp)
    have h2 := inv_setRem s (L ++ [Ev.waitOn s.current h]) rest h1
    exact inv_reclaim _ _ h s' h2 hok
  · subst hevs
    have h1 := sysInv_neutral s L (Ev.waitOn s.current h) hinv (fun i => rfl)
      (fun i f a => by simp)
    have h2 := inv_setRem s (L ++ [Ev.waitOn s.current h]) rest h1
    obtain ⟨rc2, hc2, _⟩ := status_setRem s rest s.current r hr
    have h3 := inv_register (setRem s rest) (L ++ [Ev.waitOn s.current h]) h rc2 h2 hc2
    have h4 := sched_inv _ s' evs2 _ h3 hsched
    simpa using h4
  · subst hevs
    have h1 := inv_setRem s L rest hinv
    have h2 := inv_reclaim _ _ h s' h1 hok
    simpa using h2

/-- A halting step leaves a log satisfying `LogOk`. -/
theorem stepInv_halt (s : Sys) (hh : Halt) (evs : List Ev) (L : List Ev)
    (hinv : SysInv s L) (hstep : stepSys s = StepAns.halt hh evs) :
    LogOk (L ++ evs) := by
  unfold stepSys at hstep
  split at hstep
  · cases hstep
    rw [List.append_nil]
    exact sysInv_logOk s L hinv
  · rename_i r hr
    split at hstep
    · rename_i hrem
      split at hstep
      · cases hstep
        rw [List.append_nil]
        exact sysInv_logOk s L hinv
      · cases hres : co_schedule (deadState s r.waiter) with
        | exit =>
          rw [hres] at hstep
          simp only [schedToStep] at hstep
          cases hstep
          exact sysInv_logOk _ _ (sysInv_neutral s L (Ev.died s.current) hinv
            (fun i => rfl) (fun i f a => by simp))
        | switch s2 evs2 =>
          rw [hres] at hstep
          simp only [schedToStep] at hstep
          cases hstep
    · rename_i rest hrem
      cases hres : co_schedule (setRem s rest) with
      | exit =>
        rw [hres] at hstep
        simp only [schedToStep] at hstep
        cases hstep
        rw [List.append_nil]
        exact sysInv_logOk s L hinv
      | switch s2 evs2 =>
        rw [hres] at hstep
        simp only [schedToStep] at hstep
        cases hstep
    · cases hstep
    · rename_i h rest hrem
      unfold co_wait_step at hstep
      split at hstep
      · cases hstep
        exact sysInv_logOk _ _ (sysInv_neutral s L (Ev.waitOn s.current h) hinv
          (fun i => rfl) (fun i f a => by simp))
      · rename_i hr2 hlk2
        split at hstep
        · cases hok : co_reclaim (setRem s rest) h with
          | ok s2 =>
            rw [hok] at hstep
            simp only [reclaimToStep] at hstep
            cases hstep
          | error e =>
            rw [hok] at hstep
            simp only [reclaimToStep] at hstep
            cases hstep
            exact sysInv_logOk _ _ (sysInv_neutral s L (Ev.waitOn s.current h) hinv
              (fun i => rfl) (fun i f a => by simp))
        · cases hres : co_schedule (co_wait_register (setRem s rest) h) with
          | exit =>
            rw [hres] at hstep
            simp only [schedToStep] at hstep
            cases hstep
            exact sysInv_logOk _ _ (sysInv_neutral s L (Ev.waitOn s.current h) hinv
              (fun i => rfl) (fun i f a => by simp))
          | switch s2 evs2 =>
            rw [hres] at hstep
            simp only [schedToStep] at hstep
            cases hstep
    · rename_i h rest hrem
      cases hok : co_reclaim (setRem s rest) h with
      | ok s2 =>
        rw [hok] at hstep
        simp only [reclaimToStep] at hstep
        cases hstep
      | error e =>
        rw [hok] at hstep
        simp only [reclaimToStep] at hstep
        cases hstep
        rw [List.append_nil]
        exact sysInv_logOk s L hinv

/-- The invariant propagates along every bounded run. -/
theorem run_inv : ∀ (fuel : Nat) (s : Sys) (L0 : List Ev), SysInv s L0 →
    LogOk (L0 ++ (run fuel s).2) ∧
    (∀ s2, (run fuel s).1 = RunOut.ran s2 → SysInv s2 (L0 ++ (run fuel s).2)) := by
  intro fuel
  induction fuel with
  | zero =>
    intro s L0 hinv
    constructor
    · rw [show (run 0 s).2 = [] from rfl, List.append_nil]
      exact sysInv_logOk s L0 hinv
    · intro s2 hs2
      rw [show (run 0 s).1 = RunOut.ran s from rfl] at hs2
      cases hs2
      rw [show (run 0 s).2 = [] from rfl, List.append_nil]
      exact hinv
  | succ n ih =>
    intro s L0 hinv
    cases hstep : stepSys s with
    | halt hh evs =>
      have hrun : run (n + 1) s = (RunOut.halted hh, evs) := by
        rw [run, hstep]
      constructor
      · rw [hrun]
        exact stepInv_halt s hh evs L0 hinv hstep
      · intro s2 hs2
        rw [hrun] at hs2
        cases hs2
    | next s' evs =>
      have hrun : run (n + 1) s = ((run n s').1, evs ++ (run n s').2) := by
        rw [run, hstep]
      have hinv' := stepInv_next s s' evs L0 hinv hstep
      obtain ⟨ih1, ih2⟩ := ih s' (L0 ++ evs) hinv'
      constructor
      · rw [hrun, ← List.append_assoc]
        exact ih1
      · intro s2 hs2
        rw [hrun] at hs2
        have := ih2 s2 hs2
        rw [hrun, ← List.append_assoc]
        exact this

/-- The initial state (primordial record only) satisfies the invariant with
an empty log. -/
theorem init_inv (prog : List Op) : SysInv (initSys prog) [] := by
  have hlk : ∀ i, lookupRec (initSys prog).recs i =
      (if i = 0
       then some { func := none, arg := none, status := CoStatus.running,
                   waiter := none, main := true, rem := prog }
       else none) := by
    intro i
    by_cases h : i = 0
    · subst h
      rfl
    · rw [show (initSys prog).recs =
        [(0, Rec.mk none none CoStatus.running none true prog)] from rfl]
      simp [lookupRec, Ne.symm h, h]
  have hcz : ∀ i, invCount ([] : List Ev) i = 0 := fun i => rfl
  refine ⟨?_, ?_, ?_, ?_, ?_, ?_, ?_, ?_, ?_⟩
  · intro i hi
    have hne : i ≠ 0 := by
      intro hcon
      rw [hcon, show (initSys prog).nextId = 1 from rfl] at hi
      exact absurd hi (by decide)
    refine ⟨by rw [hlk, if_neg hne], hcz i, ?_⟩
    intro f a hm
    cases hm
  · exact Nat.le_refl 1
  · intro i r hl2
    rw [hlk] at hl2
    by_cases h : i = 0
    · rw [if_pos h] at hl2
      cases hl2
      subst h
      refine ⟨by simp, ?_, ?_⟩
      · intro _ hcon
        exact CoStatus.noConfusion hcon
      · exact Iff.intro (fun _ => rfl) (fun _ => rfl)
    · rw [if_neg h] at hl2
      cases hl2
  · intro i r hl2
    rw [hlk] at hl2
    by_cases h : i = 0
    · rw [if_pos h] at hl2
      cases hl2
      refine ⟨?_, ?_, ?_, ?_⟩
      · rw [hcz]
        simp
      · intro f a hm
        cases hm
      · intro f a hm
        cases hm
      · intro hm
        exact Bool.noConfusion hm
    · rw [if_neg h] at hl2
      cases hl2
  · intro i _
    refine ⟨?_, ?_, ?_⟩
    · rw [hcz]
      exact Nat.zero_le 1
    · intro f a hm
      cases hm
    · intro f a f2 a2 hm1 hm2
      cases hm1
  · rfl
  · intro i a hm
    cases hm
  · intro r hl2
    rw [show (initSys prog).current = 0 from rfl, hlk, if_pos rfl] at hl2
    cases hl2
    intro hcon
    exact CoStatus.noConfusion hcon
  · intro i r w hl2 hw2
    rw [hlk] at hl2
    by_cases h : i = 0
    · rw [if_pos h] at hl2
      cases hl2
      cases hw2
    · rw [if_neg h] at hl2
      cases hl2

/-- An invocation event emitted by a scheduling switch identifies a record
that was `NEW` in the scheduler's state, invoked with its stored func/arg. -/
theorem invoke_in_sched (sb s' : Sys) (evs : List Ev) (i : Nat) (f a : Option Nat)
    (hsched : co_schedule sb = SchedRes.switch s' evs) (hm : Ev.invoke i f a ∈ evs) :
    ∃ r2, lookupRec sb.recs i = some r2 ∧ r2.status = CoStatus.new ∧
      f = r2.func ∧ a = r2.arg := by
  obtain ⟨sid, rsid, q', _, hlksid, _, _, _, _, hor⟩ := sched_switch_shape _ _ _ hsched
  rcases hor with ⟨_, _, hevs⟩ | ⟨hst, _, hevs⟩
  · rw [hevs] at hm
    simp at hm
  · rw [hevs] at hm
    simp at hm
    obtain ⟨h1, h2, h3⟩ := hm
    subst h1
    exact ⟨rsid, hlksid, hst, h2, h3⟩

theorem setRem_some_inv (s : Sys) (rest : List Op) (i : Nat) (r2 : Rec)
    (hl2 : lookupRec (setRem s rest).recs i = some r2) :
    ∃ r0, lookupRec s.recs i = some r0 ∧ r2.func = r0.func ∧ r2.arg = r0.arg ∧
      r2.status = r0.status := by
  cases hl : lookupRec s.recs i with
  | none =>
    have := (setRem_recs_none s rest i).mpr hl
    rw [this] at hl2
    cases hl2
  | some r0 =>
    obtain ⟨r2', hl2', p1, p2, _, p4, _, _⟩ := status_setRem s rest i r0 hl
    rw [hl2'] at hl2
    cases hl2
    exact ⟨r0, rfl, p1, p2, p4⟩

theorem deadState_some_inv_new (s : Sys) (wo : Option Nat) (i : Nat) (r2 : Rec)
    (hl2 : lookupRec (deadState s wo).recs i = some r2)
    (hnew : r2.status = CoStatus.new) :
    ∃ r0, lookupRec s.recs i = some r0 ∧ r2.func = r0.func ∧ r2.arg = r0.arg ∧
      r0.status = CoStatus.new := by
  cases hl : lookupRec s.recs i with
  | none =>
    have := (deadState_recs_none s wo i).mpr hl
    rw [this] at hl2
    cases hl2
  | some r0 =>
    obtain ⟨r2', hl2', p1, p2, _, _, _, p6⟩ := status_deadState s wo i r0 hl
    rw [hl2'] at hl2
    cases hl2
    refine ⟨r0, rfl, p1, p2, ?_⟩
    rw [p6] at hnew
    by_cases h1 : wo = some i
    · rw [if_pos h1] at hnew
      exact CoStatus.noConfusion hnew
    · rw [if_neg h1] at hnew
      by_cases h2 : i = s.current
      · rw [if_pos h2] at hnew
        exact CoStatus.noConfusion hnew
      · rw [if_neg h2] at hnew
        exact hnew

theorem register_some_inv_new (s : Sys) (h i : Nat) (r2 : Rec)
    (hl2 : lookupRec (co_wait_register s h).recs i = some r2)
    (hnew : r2.status = CoStatus.new) :
    ∃ r0, lookupRec s.recs i = some r0 ∧ r2.func = r0.func ∧ r2.arg = r0.arg ∧
      r0.status = CoStatus.new := by
  cases hl : lookupRec s.recs i with
  | none =>
    have := (register_recs_none s h i).mpr hl
    rw [this] at hl2
    cases hl2
  | some r0 =>
    obtain ⟨r2', hl2', p1, p2, _, p4, _⟩ := status_register s h i r0 hl
    rw [hl2'] at hl2
    cases hl2
    refine ⟨r0, rfl, p1, p2, ?_⟩
    rw [p4] at hnew
    by_cases h1 : i = s.current
    · rw [if_pos h1] at hnew
      exact CoStatus.noConfusion hnew
    · rw [if_neg h1] at hnew
      exact hnew

/-- The C1 witness run: spawn one coroutine with entry 9 and argument 90,
then yield to it. -/
def prog1w : List Op := [Op.spawn 9 90 [], Op.yield]

/-- The state reached by `run 3 (initSys prog1w)`: the spawned record 1 has
run to completion and is dead, the primordial record is current again. -/
def exSysW : Sys :=
  { recs := [(1, { func := some 9, arg := some 90, status := CoStatus.dead, waiter := none, main := false, rem := [] }), (0, { func := none, arg := none, status := CoStatus.running, waiter := none, main := true, rem := [] })],
    queue := [0, 1], current := 0, nextId := 2 }

/-- A state whose next step is a first-run transfer of the `NEW` record 1. -/
def exSysH : Sys :=
  { recs := [(0, mainRecEx CoStatus.running [Op.yield]), (1, recEx CoStatus.new)],
    queue := [0, 1], current := 0, nextId := 2 }

/-- The successor of `exSysH`: record 1 was invoked and is now running. -/
def exSysHnext : Sys :=
  { recs := [(0, mainRecEx CoStatus.running []), (1, recEx CoStatus.running)],
    queue := [1, 0], current := 1, nextId := 2 }

/-- C1: for every program of spawns and subsequent execution, each
coroutine's entry function is invoked at most once overall and exactly once
by the time its record is `DEAD`, with exactly the func/arg supplied at
spawn time (every invocation event is matched by the unique spawn event of
that id, carrying identical func/arg).  The third conjunct is the guard:
an invocation can only happen to a record whose status is `NEW` at
selection time, and it receives the record's stored func/arg. -/
theorem c1_entry_invoked_once :
    (∀ (prog : List Op) (fuel : Nat), LogOk (run fuel (initSys prog)).2) ∧
    (∀ (prog : List Op) (fuel : Nat) (s2 : Sys) (i : Nat) (r : Rec),
      (run fuel (initSys prog)).1 = RunOut.ran s2 →
      lookupRec s2.recs i = some r → r.main = false → r.status = CoStatus.dead →
      invCount (run fuel (initSys prog)).2 i = 1) ∧
    (∀ (s s' : Sys) (evs : List Ev) (i : Nat) (f a : Option Nat),
      stepSys s = StepAns.next s' evs → Ev.invoke i f a ∈ evs →
      ∃ r, lookupRec s.recs i = some r ∧ r.status = CoStatus.new ∧
        f = r.func ∧ a = r.arg) := by
  refine ⟨?_, ?_, ?_⟩
  · intro prog fuel
    have := (run_inv fuel (initSys prog) [] (init_inv prog)).1
    simpa using this
  · intro prog fuel s2 i r hran hl hmain hdead
    have hinv := (run_inv fuel (initSys prog) [] (init_inv prog)).2 s2 hran
    have hc := (hinv.recP i r hl).1
    rw [hmain, hdead] at hc
    simpa using hc
  · intro s s' evs i f a hstep hm
    obtain ⟨r, hr, harms⟩ := step_next_shape s s' evs hstep
    rcases harms with ⟨hrem, hmain, evs2, hsched, hevs⟩ | ⟨rest, hrem, hsched⟩ |
      ⟨f2, a2, body, rest, hrem, hs', hevs⟩ | ⟨h, rest, hr2, hrem, hlk, hdead, hok, hevs⟩ |
      ⟨h, rest, hr2, evs2, hrem, hlk, hnd, hsched, hevs⟩ | ⟨h, rest, hrem, hok, hevs⟩
    · rw [hevs] at hm
      simp at hm
      obtain ⟨r2, hl2, hnew, hf, ha⟩ := invoke_in_sched _ s' evs2 i f a hsched hm
      obtain ⟨r0, hl0, q1, q2, q4⟩ := deadState_some_inv_new s r.waiter i r2 hl2 hnew
      exact ⟨r0, hl0, q4, by rw [hf, q1], by rw [ha, q2]⟩
    · obtain ⟨r2, hl2, hnew, hf, ha⟩ := invoke_in_sched _ s' evs i f a hsched hm
      obtain ⟨r0, hl0, q1, q2, q4⟩ := setRem_some_inv s rest i r2 hl2
      refine ⟨r0, hl0, by rw [← q4]; exact hnew, by rw [hf, q1], by rw [ha, q2]⟩
    · rw [hevs] at hm
      simp at hm
    · rw [hevs] at hm
      simp at hm
    · rw [hevs] at hm
      simp at hm
      obtain ⟨r2, hl2, hnew, hf, ha⟩ := invoke_in_sched _ s' evs2 i f a hsched hm
      obtain ⟨r1, hl1, q1, q2, q4⟩ :=
        register_some_inv_new (setRem s rest) h i r2 hl2 hnew
      obtain ⟨r0, hl0, w1, w2, w4⟩ := setRem_some_inv s rest i r1 hl1
      refine ⟨r0, hl0, by rw [← w4]; exact q4, ?_, ?_⟩
      · rw [hf, q1, w1]
      · rw [ha, q2, w2]
    · rw [hevs] at hm
      simp at hm

/-- Witness for C1: in the round-robin scenario the whole log satisfies
`LogOk`; in the one-spawn run the dead record 1 has exactly one invocation;
and the concrete first-run step of `exSysH` invokes the `NEW` record 1 with
its stored entry 3 and argument 4. -/
theorem c1_entry_invoked_once_witness :
    LogOk (run 30 (initSys prog6)).2 ∧
    invCount (run 3 (initSys prog1w)).2 1 = 1 ∧
    (∃ r, lookupRec exSysH.recs 1 = some r ∧ r.status = CoStatus.new ∧
      (some 3 : Option Nat) = r.func ∧ (some 4 : Option Nat) = r.arg) :=
  ⟨c1_entry_invoked_once.1 prog6 30,
   c1_entry_invoked_once.2.1 prog1w 3 exSysW 1
     (Rec.mk (some 9) (some 90) CoStatus.dead none false []) rfl rfl rfl rfl,
   c1_entry_invoked_once.2.2 exSysH exSysHnext [Ev.invoke 1 (some 3) (some 4)] 1
     (some 3) (some 4) rfl (by decide)⟩

/-- C10: the primordial record is created at initialization with `NULL`
entry function and argument and its status is set directly to
`CO_STATUS_RUNNING` (never `NEW`); in no run is its entry invoked, and no
run ever invokes a `NULL` function pointer. -/
theorem c10_primordial_null_never_called :
    (∀ prog : List Op, lookupRec (initSys prog).recs 0 =
      some { func := none, arg := none, status := CoStatus.running, waiter := none, main := true, rem := prog }) ∧
    (∀ (prog : List Op) (fuel : Nat), invCount (run fuel (initSys prog)).2 0 = 0) ∧
    (∀ (prog : List Op) (fuel : Nat) (i : Nat) (a : Option Nat),
      Ev.invoke i none a ∉ (run fuel (initSys prog)).2) := by
  refine ⟨fun prog => rfl, ?_, ?_⟩
  · intro prog fuel
    have hz := (run_inv fuel (initSys prog) [] (init_inv prog)).1.2.2.2.2
    simpa using hz
  · intro prog fuel i a
    have hn := (run_inv fuel (initSys prog) [] (init_inv prog)).1.2.2.2.1 i a
    simpa using hn

end LibCo
